import Mathlib

/-!
Verification model of the forklift ingest pipeline.

This file gives a shallow embedding of the parts of the repository that the
frozen claims are about:

* `src/forklift/preprocessors/type_coercion.py` — the vectorized type-coercion
  stage (`TypeCoercion.process_dataframe` and its helpers);
* `src/forklift/outputs/parquet_output.py` — the Parquet sink (`PQOutput`:
  `open`, `write`, `quarantine`, `_validate_rows`, `_flush_vectorized`,
  `close`);
* `src/forklift/engine/engine.py` — the pipeline driver (`Engine.run`,
  `Engine._process_dataframe_rows`, `Engine._required_ok`);
* `src/forklift/engine/registry.py` — schema-to-stage wiring.

Modelling conventions:

* Rows are insertion-ordered association lists from column name to cell value,
  mirroring Python dicts.
* Polars `Float64` cells are modelled as exact decimal numbers `m / 10 ^ e`
  (an integer mantissa with a base-ten exponent).  The numeric string grammar
  modelled for `cast(Float64)` is: optional sign, decimal digits, optional
  fractional part.  In the integer cast chain the pass through `Float64` is
  modelled by `f64RoundInt` — binary round-to-nearest-even at 53 significant
  bits — applied to the truncated integer value, so values of magnitude above
  `2 ^ 53` are corrupted exactly as the real chain corrupts them; the parsing
  of *fractional* decimal strings is kept exact-decimal (faithful on values
  whose decimal expansion the binary format represents exactly, which is all
  the theorems exercise).
* The canonical types modelled are integer, number, boolean, date, datetime
  and string — the subset the claims exercise.  `decimal` and `binary`
  specifications normalize to `none` here (such fields pass through), which
  no theorem below relies on.
* A raised exception (the stage's error-building path raises
  `ColumnNotFoundError`, and the sink's flush-time validation re-raises it)
  is modelled by the ghost sink field `failure`: the first propagating
  exception's message.  Once set during row processing, nothing further runs
  except `close` (the driver's `try/finally`), whose own flush stops at the
  first raising table while the manifest is still written (the sink's nested
  `finally`).
* Sink state carries two further ghost fields, `skipped` (rows dropped via
  the skip flag — the spec's `skipped_by_flag` counter) and `writeLog` (the
  exact rows passed to `write`), which instrument observable call behaviour
  without changing it.
-/

namespace Forklift

/-- Cell values as they appear in rows: null, raw strings, or typed scalars.
`vNum m e` is the exact decimal `m / 10 ^ e` standing for a `Float64`;
`vDatetime` is a naive timestamp (the writer-facing representation after
timezone stripping). -/
inductive Value where
  | vNull : Value
  | vStr : String → Value
  | vInt : Int → Value
  | vNum : Int → Nat → Value
  | vBool : Bool → Value
  | vDate : Nat → Nat → Nat → Value
  | vDatetime : Nat → Nat → Nat → Nat → Nat → Nat → Value
  deriving DecidableEq

/-- A row: an insertion-ordered mapping from column name to cell value,
mirroring a Python dict of cells. -/
abbrev Row := List (String × Value)

/-- Association-list lookup (first binding wins), mirroring `dict.__getitem__`
presence semantics: `none` means the key is absent. -/
def assocGet {α : Type} (l : List (String × α)) (k : String) : Option α :=
  match l with
  | [] => none
  | (k0, v) :: rest => if k0 = k then some v else assocGet rest k

/-- Dict assignment: replace the value in place when the key exists (keeping
its position, as Python dicts do), else append the binding. -/
def rowInsert (r : Row) (k : String) (v : Value) : Row :=
  match r with
  | [] => [(k, v)]
  | (k0, v0) :: rest => if k0 = k then (k0, v) :: rest else (k0, v0) :: rowInsert rest k v

/-- The column names of a row, in order. -/
def rowKeys (r : Row) : List String := r.map (·.1)

instance exceptDecEq {ε α : Type} [DecidableEq ε] [DecidableEq α] :
    DecidableEq (Except ε α)
  | .ok a, .ok b =>
    if h : a = b then .isTrue (by rw [h]) else .isFalse (fun hc => h (by injection hc))
  | .ok _, .error _ => .isFalse (fun hc => Except.noConfusion hc)
  | .error _, .ok _ => .isFalse (fun hc => Except.noConfusion hc)
  | .error e, .error f =>
    if h : e = f then .isTrue (by rw [h]) else .isFalse (fun hc => h (by injection hc))

/-! ### Base-ten digit strings

Fuel-based (hence kernel-computable) rendering and parsing of decimal digit
strings, used to model polars' `cast(Utf8)` / `cast(Float64)` round trips. -/

/-- Little-endian base-ten digits of `n`, with explicit fuel. -/
def natDigitsAux : Nat → Nat → List Nat
  | 0, _ => []
  | fuel + 1, n => if n = 0 then [] else n % 10 :: natDigitsAux fuel (n / 10)

/-- Little-endian base-ten digits of `n` (empty for zero). -/
def natDigits (n : Nat) : List Nat := natDigitsAux n n

/-- Value of a little-endian base-ten digit list. -/
def ofDigits10 : List Nat → Nat
  | [] => 0
  | d :: ds => d + 10 * ofDigits10 ds

theorem natDigitsAux_spec (fuel : Nat) :
    ∀ n, n ≤ fuel →
      ofDigits10 (natDigitsAux fuel n) = n ∧ ∀ d ∈ natDigitsAux fuel n, d < 10 := by
  induction fuel with
  | zero =>
    intro n hn
    have : n = 0 := Nat.le_zero.mp hn
    subst this
    exact ⟨rfl, by intro d hd; cases hd⟩
  | succ fuel ih =>
    intro n hn
    by_cases h0 : n = 0
    · subst h0
      constructor
      · simp [natDigitsAux, ofDigits10]
      · intro d hd
        simp [natDigitsAux] at hd
    · have hdiv : n / 10 ≤ fuel := by
        have hlt : n / 10 < n := Nat.div_lt_self (Nat.pos_of_ne_zero h0) (by omega)
        omega
      obtain ⟨ihv, ihd⟩ := ih (n / 10) hdiv
      constructor
      · simp only [natDigitsAux, if_neg h0, ofDigits10, ihv]
        omega
      · intro d hd
        simp only [natDigitsAux, if_neg h0, List.mem_cons] at hd
        rcases hd with h | h
        · subst h; exact Nat.mod_lt _ (by omega)
        · exact ihd d h

theorem ofDigits10_natDigits (n : Nat) : ofDigits10 (natDigits n) = n :=
  (natDigitsAux_spec n n (Nat.le_refl n)).1

theorem natDigits_lt_ten (n : Nat) : ∀ d ∈ natDigits n, d < 10 :=
  (natDigitsAux_spec n n (Nat.le_refl n)).2

theorem natDigits_ne_nil {n : Nat} (h : n ≠ 0) : natDigits n ≠ [] := by
  cases n with
  | zero => exact absurd rfl h
  | succ m => simp [natDigits, natDigitsAux]

theorem natDigitsAux_len_le (fuel : Nat) :
    ∀ n e, n ≤ fuel → n < 10 ^ e → (natDigitsAux fuel n).length ≤ e := by
  induction fuel with
  | zero =>
    intro n e hn _
    have : n = 0 := Nat.le_zero.mp hn
    subst this
    simp [natDigitsAux]
  | succ fuel ih =>
    intro n e hn hlt
    by_cases h0 : n = 0
    · subst h0; simp [natDigitsAux]
    · cases e with
      | zero =>
        simp only [pow_zero, Nat.lt_one_iff] at hlt
        exact absurd hlt h0
      | succ e =>
        have hdiv : n / 10 ≤ fuel := by
          have : n / 10 < n := Nat.div_lt_self (Nat.pos_of_ne_zero h0) (by omega)
          omega
        have hdlt : n / 10 < 10 ^ e := by
          have h10 : n < 10 ^ e * 10 := by
            calc n < 10 ^ (e + 1) := hlt
            _ = 10 ^ e * 10 := by ring
          exact Nat.div_lt_of_lt_mul (by omega)
        have := ih (n / 10) e hdiv hdlt
        simp only [natDigitsAux, if_neg h0, List.length_cons]
        omega

theorem natDigits_len_le {n e : Nat} (h : n < 10 ^ e) : (natDigits n).length ≤ e :=
  natDigitsAux_len_le n n e (Nat.le_refl n) h

/-- The printable character of a decimal digit. -/
def digitChar (d : Nat) : Char := Char.ofNat (48 + d)

/-- The digit value a character contributes when parsed (`c - '0'`). -/
def charDigitVal (c : Char) : Nat := c.toNat - 48

/-- Whether a character is an ASCII decimal digit. -/
def isDigitCh (c : Char) : Bool := 48 ≤ c.toNat && c.toNat ≤ 57

theorem digitChar_val {d : Nat} (h : d < 10) : charDigitVal (digitChar d) = d := by
  interval_cases d <;> decide

theorem digitChar_isDigit {d : Nat} (h : d < 10) : isDigitCh (digitChar d) = true := by
  interval_cases d <;> decide

theorem digitChar_toNat {d : Nat} (h : d < 10) : (digitChar d).toNat = 48 + d := by
  interval_cases d <;> decide

/-- Render a natural number in decimal (`"0"` for zero). -/
def natRenderChars (n : Nat) : List Char :=
  if n = 0 then ['0'] else (natDigits n).reverse.map digitChar

/-- Render an integer in decimal with a leading minus sign when negative. -/
def intRenderChars (i : Int) : List Char :=
  if i < 0 then '-' :: natRenderChars i.natAbs else natRenderChars i.natAbs

/-- Parse a (pre-checked) digit string, most significant digit first. -/
def charsToNat (cs : List Char) : Nat := ofDigits10 ((cs.map charDigitVal).reverse)

theorem charsToNat_append (a b : List Char) :
    charsToNat (a ++ b) = charsToNat b + 10 ^ b.length * charsToNat a := by
  have h : ∀ (xs ys : List Nat),
      ofDigits10 (xs ++ ys) = ofDigits10 xs + 10 ^ xs.length * ofDigits10 ys := by
    intro xs ys
    induction xs with
    | nil => simp [ofDigits10]
    | cons d ds ih =>
      simp only [List.cons_append, ofDigits10, ih, List.length_cons]
      ring_nf
      rw [List.append_eq, ih]
      ring
  unfold charsToNat
  rw [List.map_append, List.reverse_append, h]
  simp

theorem charsToNat_digits (n : Nat) :
    charsToNat ((natDigits n).reverse.map digitChar) = n := by
  unfold charsToNat
  rw [List.map_map]
  have hmap : ((natDigits n).reverse).map (charDigitVal ∘ digitChar) = (natDigits n).reverse := by
    rw [show ((natDigits n).reverse = List.map id (natDigits n).reverse) by simp]
    rw [List.map_map]
    apply List.map_congr_left
    intro d hd
    simp only [List.mem_reverse] at hd
    have : d < 10 := natDigits_lt_ten n d (by simpa using hd)
    simpa using digitChar_val this
  rw [hmap, List.reverse_reverse, ofDigits10_natDigits]

theorem charsToNat_natRender (n : Nat) : charsToNat (natRenderChars n) = n := by
  unfold natRenderChars
  by_cases h : n = 0
  · subst h; decide
  · rw [if_neg h]; exact charsToNat_digits n

theorem natRender_all_digits (n : Nat) : ∀ c ∈ natRenderChars n, isDigitCh c = true := by
  unfold natRenderChars
  by_cases h : n = 0
  · subst h; intro c hc; simp at hc; subst hc; decide
  · rw [if_neg h]
    intro c hc
    obtain ⟨d, hd, rfl⟩ := List.mem_map.mp hc
    exact digitChar_isDigit (natDigits_lt_ten n d (List.mem_reverse.mp hd))

theorem natRender_ne_nil (n : Nat) : natRenderChars n ≠ [] := by
  unfold natRenderChars
  by_cases h : n = 0
  · subst h; simp
  · rw [if_neg h]
    simp only [ne_eq, List.map_eq_nil_iff, List.reverse_eq_nil_iff]
    exact natDigits_ne_nil h

/-! ### Numeric string normalization and parsing

Models `_strip_numeric_artifacts` / `_norm_numeric_tokens` of
`type_coercion.py` (strip, parenthetical negatives, currency/thousands
separators) and polars' `cast(pl.Float64, strict=False)` on strings. -/

/-- ASCII whitespace, as stripped by `str.strip_chars()` / `str.strip()`. -/
def isWsCh (c : Char) : Bool := c = ' ' || c = '\t' || c = '\n' || c = '\r'

/-- Strip leading and trailing whitespace. -/
def trimChars (cs : List Char) : List Char :=
  ((cs.dropWhile isWsCh).reverse.dropWhile isWsCh).reverse

theorem trimChars_no_ws {cs : List Char} (h : ∀ c ∈ cs, isWsCh c = false) :
    trimChars cs = cs := by
  unfold trimChars
  have h1 : cs.dropWhile isWsCh = cs := by
    cases cs with
    | nil => rfl
    | cons c rest =>
      rw [List.dropWhile_cons_of_neg]
      simp [h c (List.mem_cons_self c rest)]
  rw [h1]
  have h2 : cs.reverse.dropWhile isWsCh = cs.reverse := by
    cases hrev : cs.reverse with
    | nil => rfl
    | cons c rest =>
      rw [List.dropWhile_cons_of_neg]
      have hc : c ∈ cs := by
        rw [← List.mem_reverse, hrev]; exact List.mem_cons_self c rest
      simp [h c hc]
  rw [h2, List.reverse_reverse]

/-- Replace the whole-token parenthetical negative form `(x)` by `-x`
(the regex `^\((.*)\)$ → -$1` of `_norm_numeric_tokens`). -/
def parenNeg (cs : List Char) : List Char :=
  if cs.head? = some '(' ∧ cs.getLast? = some ')' ∧ 2 ≤ cs.length then
    '-' :: (cs.drop 1).dropLast
  else cs

/-- Remove thousands separators and currency marks (the regex `[,$€]`). -/
def stripCurrency (cs : List Char) : List Char :=
  cs.filter (fun c => !(c = ',' || c = '$' || c = '€'))

/-- `_norm_numeric_tokens`: strip, fold `(x)` to `-x`, drop `[,$€]`. -/
def normNumericChars (cs : List Char) : List Char :=
  stripCurrency (parenNeg (trimChars cs))

/-- Split a character list at the first `'.'`, if any. -/
def splitDot : List Char → List Char × Option (List Char)
  | [] => ([], none)
  | c :: rest =>
    if c = '.' then ([], some rest)
    else
      let p := splitDot rest
      (c :: p.1, p.2)

theorem splitDot_no_dot {cs : List Char} (h : ∀ c ∈ cs, c ≠ '.') :
    splitDot cs = (cs, none) := by
  induction cs with
  | nil => rfl
  | cons c rest ih =>
    have hc : ¬ c = '.' := h c (List.mem_cons_self c rest)
    simp only [splitDot, if_neg hc]
    rw [ih (fun x hx => h x (List.mem_cons_of_mem c hx))]

theorem splitDot_dot {a : List Char} (b : List Char) (h : ∀ c ∈ a, c ≠ '.') :
    splitDot (a ++ '.' :: b) = (a, some b) := by
  induction a with
  | nil => simp [splitDot]
  | cons c rest ih =>
    have hc : ¬ c = '.' := h c (List.mem_cons_self c rest)
    simp only [List.cons_append, splitDot, if_neg hc]
    rw [show rest.append ('.' :: b) = rest ++ '.' :: b from rfl,
      ih (fun x hx => h x (List.mem_cons_of_mem c hx))]

/-- Parse an unsigned decimal literal: digits with an optional single point
(`"1"`, `"1.5"`, `"1."`, `".5"`).  Returns the scaled mantissa and the
number of fractional digits. -/
def parseUnsignedDec (cs : List Char) : Option (Nat × Nat) :=
  match splitDot cs with
  | (a, none) =>
    if a ≠ [] ∧ a.all isDigitCh then some (charsToNat a, 0) else none
  | (a, some b) =>
    if (a ≠ [] ∨ b ≠ []) ∧ a.all isDigitCh ∧ b.all isDigitCh then
      some (charsToNat (a ++ b), b.length)
    else none

/-- Model of `cast(pl.Float64, strict=False)` on a (stripped) string: parse a
signed decimal literal to the exact value `m / 10 ^ e`; `none` is the null
produced for a malformed literal. -/
def parseDecChars (cs : List Char) : Option (Int × Nat) :=
  match cs with
  | [] => none
  | c :: rest =>
    if c = '-' then (parseUnsignedDec rest).map (fun p => (-(p.1 : Int), p.2))
    else if c = '+' then (parseUnsignedDec rest).map (fun p => ((p.1 : Int), p.2))
    else (parseUnsignedDec cs).map (fun p => ((p.1 : Int), p.2))

/-- Decimal digits of `r` left-padded with zeros to width `e`
(rendering of a fractional part of scale `e`). -/
def padDigits (e r : Nat) : List Char :=
  List.replicate (e - (natDigits r).length) '0' ++ (natDigits r).reverse.map digitChar

/-- Render the exact decimal `m / 10 ^ e` the way polars renders a `Float64`
to Utf8 (sign, integer part, point, `e` fractional digits). -/
def renderDecChars (m : Int) (e : Nat) : List Char :=
  if e = 0 then intRenderChars m
  else
    (if m < 0 then ['-'] else []) ++
      natRenderChars (m.natAbs / 10 ^ e) ++ '.' :: padDigits e (m.natAbs % 10 ^ e)

theorem isDigitCh_ne_dot {c : Char} (h : isDigitCh c = true) : c ≠ '.' := by
  intro hc; subst hc; simp [isDigitCh] at h

theorem padDigits_all_digits (e r : Nat) : ∀ c ∈ padDigits e r, isDigitCh c = true := by
  intro c hc
  unfold padDigits at hc
  rcases List.mem_append.mp hc with h | h
  · rw [List.eq_of_mem_replicate h]; decide
  · obtain ⟨d, hd, rfl⟩ := List.mem_map.mp h
    exact digitChar_isDigit (natDigits_lt_ten r d (List.mem_reverse.mp hd))

theorem padDigits_length {e r : Nat} (h : r < 10 ^ e) : (padDigits e r).length = e := by
  unfold padDigits
  have := natDigits_len_le h
  simp only [List.length_append, List.length_replicate, List.length_map, List.length_reverse]
  omega

theorem ofDigits10_replicate_zero (k : Nat) : ofDigits10 (List.replicate k 0) = 0 := by
  induction k with
  | zero => rfl
  | succ k ih => rw [List.replicate_succ, ofDigits10, ih]

theorem charsToNat_replicate_zero (k : Nat) (ds : List Char) :
    charsToNat (List.replicate k '0' ++ ds) = charsToNat ds := by
  rw [charsToNat_append]
  have hz : charsToNat (List.replicate k '0') = 0 := by
    unfold charsToNat
    have : (List.replicate k '0').map charDigitVal = List.replicate k 0 := by
      rw [List.map_replicate]; rfl
    rw [this, List.reverse_replicate, ofDigits10_replicate_zero]
  rw [hz]
  omega

theorem charsToNat_padDigits (e r : Nat) : charsToNat (padDigits e r) = r := by
  unfold padDigits
  rw [charsToNat_replicate_zero, charsToNat_digits]

theorem parseUnsignedDec_digits {a : List Char}
    (ha : a ≠ []) (hd : ∀ c ∈ a, isDigitCh c = true) :
    parseUnsignedDec a = some (charsToNat a, 0) := by
  unfold parseUnsignedDec
  rw [splitDot_no_dot (fun c hc => isDigitCh_ne_dot (hd c hc))]
  simp only [ne_eq, List.all_eq_true]
  rw [if_pos ⟨ha, hd⟩]

theorem parseUnsignedDec_point {a b : List Char}
    (hab : a ≠ [] ∨ b ≠ [])
    (hda : ∀ c ∈ a, isDigitCh c = true) (hdb : ∀ c ∈ b, isDigitCh c = true) :
    parseUnsignedDec (a ++ '.' :: b) = some (charsToNat (a ++ b), b.length) := by
  unfold parseUnsignedDec
  rw [splitDot_dot b (fun c hc => isDigitCh_ne_dot (hda c hc))]
  simp only [ne_eq, List.all_eq_true]
  rw [if_pos ⟨hab, hda, hdb⟩]

theorem isDigitCh_ne {c : Char} (h : isDigitCh c = true) (d : Char)
    (hd : isDigitCh d = false) : ¬ c = d := by
  intro he; subst he; rw [h] at hd; cases hd

theorem isDigitCh_not_sign {c : Char} (h : isDigitCh c = true) :
    ¬ c = '-' ∧ ¬ c = '+' :=
  ⟨isDigitCh_ne h '-' (by decide), isDigitCh_ne h '+' (by decide)⟩

theorem parseDecChars_digits {a : List Char}
    (ha : a ≠ []) (hd : ∀ c ∈ a, isDigitCh c = true) :
    parseDecChars a = some ((charsToNat a : Int), 0) := by
  match a, ha with
  | c :: rest, _ =>
    have hc := isDigitCh_not_sign (hd c (List.mem_cons_self c rest))
    simp only [parseDecChars]
    rw [if_neg hc.1, if_neg hc.2, parseUnsignedDec_digits (by simp) hd]
    rfl

/-- Rendering an integer and casting it back via the `Float64` path is the
identity (polars renders `Int64` exactly and the literal re-parses exactly). -/
theorem parseDecChars_intRender (m : Int) :
    parseDecChars (intRenderChars m) = some (m, 0) := by
  unfold intRenderChars
  by_cases hm : m < 0
  · rw [if_pos hm]
    simp only [parseDecChars, if_true]
    rw [parseUnsignedDec_digits (natRender_ne_nil _) (natRender_all_digits _)]
    simp only [Option.map_some', charsToNat_natRender]
    have : (-(m.natAbs : Int)) = m := by omega
    rw [this]
  · rw [if_neg hm]
    rw [parseDecChars_digits (natRender_ne_nil _) (natRender_all_digits _)]
    rw [charsToNat_natRender]
    have : ((m.natAbs : Int)) = m := Int.natAbs_of_nonneg (Int.not_lt.mp hm)
    rw [this]

/-- Rendering an exact decimal and re-parsing it is the identity: the model
of the `Float64 → Utf8 → Float64` round trip on sink re-validation. -/
theorem parseDecChars_renderDec (m : Int) (e : Nat) :
    parseDecChars (renderDecChars m e) = some (m, e) := by
  unfold renderDecChars
  by_cases he : e = 0
  · subst he; rw [if_pos rfl, parseDecChars_intRender]
  · rw [if_neg he]
    have hmod : m.natAbs % 10 ^ e < 10 ^ e := Nat.mod_lt _ (Nat.pos_pow_of_pos e (by omega))
    have hcore : parseUnsignedDec
        (natRenderChars (m.natAbs / 10 ^ e) ++ '.' :: padDigits e (m.natAbs % 10 ^ e)) =
        some (m.natAbs, e) := by
      rw [parseUnsignedDec_point (Or.inl (natRender_ne_nil _))
        (natRender_all_digits _) (padDigits_all_digits _ _)]
      rw [charsToNat_append, charsToNat_natRender, charsToNat_padDigits,
        padDigits_length hmod]
      rw [show m.natAbs % 10 ^ e + 10 ^ e * (m.natAbs / 10 ^ e) = m.natAbs from
        Nat.mod_add_div _ _]
    by_cases hm : m < 0
    · rw [if_pos hm]
      simp only [List.singleton_append, List.cons_append, List.nil_append]
      simp only [parseDecChars, if_true]
      rw [hcore]
      simp only [Option.map_some']
      have : (-(m.natAbs : Int)) = m := by omega
      rw [this]
    · rw [if_neg hm]
      simp only [List.nil_append]
      have hne : natRenderChars (m.natAbs / 10 ^ e) ≠ [] := natRender_ne_nil _
      match hren : natRenderChars (m.natAbs / 10 ^ e), hne with
      | c :: rest, _ =>
        have hcd : isDigitCh c = true := by
          have := natRender_all_digits (m.natAbs / 10 ^ e)
          rw [hren] at this
          exact this c (List.mem_cons_self c rest)
        have hsig := isDigitCh_not_sign hcd
        rw [hren] at hcore
        rw [List.cons_append] at hcore ⊢
        simp only [parseDecChars]
        rw [if_neg hsig.1, if_neg hsig.2, hcore]
        simp only [Option.map_some']
        rw [Int.natAbs_of_nonneg (Int.not_lt.mp hm)]

/-- Every character of a rendered decimal is a digit, the sign, or the
point. -/
theorem renderDec_classes (m : Int) (e : Nat) :
    ∀ c ∈ renderDecChars m e, isDigitCh c = true ∨ c = '-' ∨ c = '.' := by
  intro c hc
  unfold renderDecChars at hc
  by_cases he : e = 0
  · rw [if_pos he] at hc
    unfold intRenderChars at hc
    by_cases hm : m < 0
    · rw [if_pos hm] at hc
      rcases List.mem_cons.mp hc with h | h
      · exact Or.inr (Or.inl h)
      · exact Or.inl (natRender_all_digits _ c h)
    · rw [if_neg hm] at hc
      exact Or.inl (natRender_all_digits _ c hc)
  · rw [if_neg he] at hc
    rcases List.mem_append.mp hc with h | h
    · rcases List.mem_append.mp h with h1 | h1
      · by_cases hm : m < 0
        · rw [if_pos hm] at h1; simp at h1; exact Or.inr (Or.inl h1)
        · rw [if_neg hm] at h1; simp at h1
      · exact Or.inl (natRender_all_digits _ c h1)
    · rcases List.mem_cons.mp h with h1 | h1
      · exact Or.inr (Or.inr h1)
      · exact Or.inl (padDigits_all_digits _ _ c h1)

/-- No character of a rendered decimal is whitespace. -/
theorem renderDec_no_ws (m : Int) (e : Nat) :
    ∀ c ∈ renderDecChars m e, isWsCh c = false := by
  intro c hc
  rcases renderDec_classes m e c hc with h | h | h
  · simp only [isWsCh]
    have h32 := isDigitCh_ne h ' ' (by decide)
    have h9 := isDigitCh_ne h '\t' (by decide)
    have h10 := isDigitCh_ne h '\n' (by decide)
    have h13 := isDigitCh_ne h '\r' (by decide)
    simp [h32, h9, h10, h13]
  · subst h; decide
  · subst h; decide

theorem renderDec_ne_nil (m : Int) (e : Nat) : renderDecChars m e ≠ [] := by
  unfold renderDecChars
  by_cases he : e = 0
  · rw [if_pos he]
    unfold intRenderChars
    by_cases hm : m < 0
    · rw [if_pos hm]; simp
    · rw [if_neg hm]; exact natRender_ne_nil _
  · rw [if_neg he]
    intro h
    rcases List.append_eq_nil.mp h with ⟨-, h2⟩
    cases h2

/-- The digits, sign and point of a rendered decimal are untouched by
`_norm_numeric_tokens`: no surrounding whitespace, no parenthetical form,
no separator or currency characters. -/
theorem normNumeric_renderDec (m : Int) (e : Nat) :
    normNumericChars (renderDecChars m e) = renderDecChars m e := by
  have hclass := renderDec_classes m e
  unfold normNumericChars
  have htrim : trimChars (renderDecChars m e) = renderDecChars m e := by
    apply trimChars_no_ws
    intro c hc
    rcases hclass c hc with h | h | h
    · simp only [isWsCh]
      have h32 := isDigitCh_ne h ' ' (by decide)
      have h9 := isDigitCh_ne h '\t' (by decide)
      have h10 := isDigitCh_ne h '\n' (by decide)
      have h13 := isDigitCh_ne h '\r' (by decide)
      simp [h32, h9, h10, h13]
    · subst h; decide
    · subst h; decide
  rw [htrim]
  have hparen : parenNeg (renderDecChars m e) = renderDecChars m e := by
    unfold parenNeg
    rw [if_neg]
    intro ⟨hh, _, _⟩
    match hr : renderDecChars m e, hh with
    | c :: rest, hh =>
      simp only [List.head?_cons, Option.some_inj] at hh
      have := hclass c (by rw [hr]; exact List.mem_cons_self c rest)
      subst hh
      rcases this with h | h | h
      · simp [isDigitCh] at h
      · cases h
      · cases h
  rw [hparen]
  unfold stripCurrency
  apply List.filter_eq_self.mpr
  intro c hc
  rcases hclass c hc with h | h | h
  · have h1 := isDigitCh_ne h ',' (by decide)
    have h2 := isDigitCh_ne h '$' (by decide)
    have h3 := isDigitCh_ne h '€' (by decide)
    simp [h1, h2, h3]
  · subst h; decide
  · subst h; decide

/-- `intRenderChars` is the degenerate case of `renderDecChars`. -/
theorem normNumeric_intRender (m : Int) :
    normNumericChars (intRenderChars m) = intRenderChars m := by
  have := normNumeric_renderDec m 0
  unfold renderDecChars at this
  simpa using this

/-- A list whose first and last characters are not whitespace is untouched
by a both-ends strip. -/
theorem trimChars_of_ends {cs : List Char} {c0 c1 : Char}
    (h0 : cs.head? = some c0) (hw0 : isWsCh c0 = false)
    (h1 : cs.getLast? = some c1) (hw1 : isWsCh c1 = false) :
    trimChars cs = cs := by
  unfold trimChars
  have hd : cs.dropWhile isWsCh = cs := by
    cases cs with
    | nil => rfl
    | cons c rest =>
      simp only [List.head?_cons, Option.some_inj] at h0
      subst h0
      rw [List.dropWhile_cons_of_neg]
      simp [hw0]
  rw [hd]
  have hr : cs.reverse.dropWhile isWsCh = cs.reverse := by
    cases hrev : cs.reverse with
    | nil => rfl
    | cons c rest =>
      have : cs.getLast? = some c := by
        rw [← List.head?_reverse, hrev, List.head?_cons]
      rw [h1] at this
      injection this with hcc
      subst hcc
      rw [List.dropWhile_cons_of_neg]
      simp [hw1]
  rw [hr, List.reverse_reverse]

/-! ### Dates and value rendering -/

/-- `YYYY-MM-DD` rendering of a civil date (fields zero-padded via
`padDigits`), as polars renders a `Date` column cast to Utf8. -/
def renderDateChars (y m d : Nat) : List Char :=
  padDigits 4 y ++ '-' :: padDigits 2 m ++ '-' :: padDigits 2 d

/-- `YYYY-MM-DD HH:MM:SS` rendering of a naive timestamp cast to Utf8
(fractional digits elided; only blankness and null-token membership of this
string are ever observed by the modelled pipeline). -/
def renderDatetimeChars (y mo d h mi s : Nat) : List Char :=
  renderDateChars y mo d ++ ' ' :: padDigits 2 h ++ ':' :: padDigits 2 mi ++ ':' :: padDigits 2 s

theorem padDigits_ne_nil {e : Nat} (he : e ≠ 0) (r : Nat) : padDigits e r ≠ [] := by
  unfold padDigits
  intro h
  rcases List.append_eq_nil.mp h with ⟨h1, h2⟩
  have hlen := congrArg List.length h1
  simp only [List.length_replicate, List.length_nil] at hlen
  have hlen2 := congrArg List.length h2
  simp only [List.length_map, List.length_reverse, List.length_nil] at hlen2
  omega

/-- The datetime rendering starts with a digit. -/
theorem renderDatetime_head (y mo d h mi s : Nat) :
    ∃ c, (renderDatetimeChars y mo d h mi s).head? = some c ∧ isDigitCh c = true := by
  unfold renderDatetimeChars renderDateChars
  have hne : padDigits 4 y ≠ [] := padDigits_ne_nil (by omega) y
  match hp : padDigits 4 y, hne with
  | c :: rest, _ =>
    refine ⟨c, ?_, ?_⟩
    · simp [List.cons_append]
    · have := padDigits_all_digits 4 y
      rw [hp] at this
      exact this c (List.mem_cons_self c rest)

/-- The datetime rendering ends with a digit. -/
theorem renderDatetime_last (y mo d h mi s : Nat) :
    ∃ c, (renderDatetimeChars y mo d h mi s).getLast? = some c ∧ isDigitCh c = true := by
  unfold renderDatetimeChars
  have hne : padDigits 2 s ≠ [] := padDigits_ne_nil (by omega) s
  match hp : padDigits 2 s, hne with
  | p :: ps, _ =>
    rw [List.getLast?_append_cons, List.getLast?_cons_cons,
      List.getLast?_eq_getLast_of_ne_nil (List.cons_ne_nil p ps)]
    refine ⟨(p :: ps).getLast (List.cons_ne_nil p ps), rfl, ?_⟩
    have hmem := List.getLast_mem (l := p :: ps) (List.cons_ne_nil p ps)
    have hall := padDigits_all_digits 2 s
    rw [hp] at hall
    exact hall _ hmem

theorem isDigitCh_not_ws {c : Char} (h : isDigitCh c = true) : isWsCh c = false := by
  simp only [isWsCh]
  have h32 := isDigitCh_ne h ' ' (by decide)
  have h9 := isDigitCh_ne h '\t' (by decide)
  have h10 := isDigitCh_ne h '\n' (by decide)
  have h13 := isDigitCh_ne h '\r' (by decide)
  simp [h32, h9, h10, h13]

/-- The datetime rendering survives `_nullify`'s blank check. -/
theorem trim_renderDatetime (y mo d h mi s : Nat) :
    trimChars (renderDatetimeChars y mo d h mi s) = renderDatetimeChars y mo d h mi s ∧
      renderDatetimeChars y mo d h mi s ≠ [] := by
  obtain ⟨c0, hc0, hd0⟩ := renderDatetime_head y mo d h mi s
  obtain ⟨c1, hc1, hd1⟩ := renderDatetime_last y mo d h mi s
  constructor
  · exact trimChars_of_ends hc0 (isDigitCh_not_ws hd0) hc1 (isDigitCh_not_ws hd1)
  · intro hnil
    rw [hnil] at hc0
    cases hc0

/-- Leap-year rule used by `strptime` validity checking. -/
def isLeap (y : Nat) : Bool := (y % 4 = 0 && y % 100 ≠ 0) || y % 400 = 0

/-- Days in a month. -/
def daysInMonth (y m : Nat) : Nat :=
  if m = 2 then (if isLeap y then 29 else 28)
  else if m = 4 ∨ m = 6 ∨ m = 9 ∨ m = 11 then 30
  else 31

/-- Whether `y-m-d` is a real civil date (what `strptime` enforces). -/
def validDate (y m d : Nat) : Bool :=
  1 ≤ m && m ≤ 12 && 1 ≤ d && d ≤ daysInMonth y m

/-- Parse exactly `n` digit characters, returning their value and the rest. -/
def parseFixedDigits : Nat → List Char → Option (Nat × List Char)
  | 0, cs => some (0, cs)
  | _ + 1, [] => none
  | n + 1, c :: cs =>
    if isDigitCh c then
      match parseFixedDigits n cs with
      | some (v, rest) => some (charDigitVal c * 10 ^ n + v, rest)
      | none => none
    else none

/-- Parse `YYYYsMMsDD` with a given separator (a zero-padded `strptime`
pattern such as `%Y-%m-%d`). -/
def parseDateSep (sep : Char) (cs : List Char) : Option (Nat × Nat × Nat) :=
  match parseFixedDigits 4 cs with
  | none => none
  | some (y, rest) =>
    match rest with
    | c :: rest2 =>
      if c = sep then
        match parseFixedDigits 2 rest2 with
        | none => none
        | some (m, rest3) =>
          match rest3 with
          | c2 :: rest4 =>
            if c2 = sep then
              match parseFixedDigits 2 rest4 with
              | some (d, []) => if validDate y m d then some (y, m, d) else none
              | _ => none
            else none
          | [] => none
      else none
    | [] => none

/-- Parse `YYYYMMDD` (`%Y%m%d`). -/
def parseDateCompact (cs : List Char) : Option (Nat × Nat × Nat) :=
  match parseFixedDigits 4 cs with
  | none => none
  | some (y, rest) =>
    match parseFixedDigits 2 rest with
    | none => none
    | some (m, rest2) =>
      match parseFixedDigits 2 rest2 with
      | some (d, []) => if validDate y m d then some (y, m, d) else none
      | _ => none

/-- Parse `DD/MM/YYYY` (`%d/%m/%Y`). -/
def parseDateDMY (cs : List Char) : Option (Nat × Nat × Nat) :=
  match parseFixedDigits 2 cs with
  | none => none
  | some (d, rest) =>
    match rest with
    | '/' :: rest2 =>
      match parseFixedDigits 2 rest2 with
      | none => none
      | some (m, rest3) =>
        match rest3 with
        | '/' :: rest4 =>
          match parseFixedDigits 4 rest4 with
          | some (y, []) => if validDate y m d then some (y, m, d) else none
          | _ => none
        | _ => none
    | _ => none

/-- The default candidate formats of the date branch of `process_dataframe`
(`%Y-%m-%d`, `%Y/%m/%d`, `%d/%m/%Y`, `%Y.%m.%d`, `%Y%m%d`; the two
month-name formats of the source list are outside the modelled subset). -/
def parseDateCandidates (cs : List Char) : Option (Nat × Nat × Nat) :=
  (parseDateSep '-' cs).orElse fun _ =>
    (parseDateSep '/' cs).orElse fun _ =>
      (parseDateDMY cs).orElse fun _ =>
        (parseDateSep '.' cs).orElse fun _ => parseDateCompact cs

/-- Model of the python fallback `_coerce_date_py_opt` /
`utils.date_parser.coerce_date` restricted to its numeric common formats
(the month-name and fuzzy `dateutil` paths are outside the modelled subset). -/
def parseDateFallback (cs : List Char) : Option (Nat × Nat × Nat) :=
  (parseDateCompact cs).orElse fun _ =>
    (parseDateSep '-' cs).orElse fun _ =>
      (parseDateDMY cs).orElse fun _ =>
        (parseDateSep '/' cs).orElse fun _ => parseDateSep '.' cs

/-- Parse `YYYY-MM-DD HH:MM:SS` / `YYYY-MM-DDTHH:MM:SS` (the naive core of
the datetime candidate formats; offsets and fractional seconds are outside
the modelled subset, which no theorem exercises). -/
def parseDatetimeChars (cs : List Char) : Option (Nat × Nat × Nat × Nat × Nat × Nat) :=
  match parseFixedDigits 4 cs with
  | none => none
  | some (y, rest) =>
    match rest with
    | '-' :: rest2 =>
      match parseFixedDigits 2 rest2 with
      | none => none
      | some (mo, rest3) =>
        match rest3 with
        | '-' :: rest4 =>
          match parseFixedDigits 2 rest4 with
          | none => none
          | some (d, rest5) =>
            match rest5 with
            | c :: rest6 =>
              if c = ' ' ∨ c = 'T' then
                match parseFixedDigits 2 rest6 with
                | none => none
                | some (h, rest7) =>
                  match rest7 with
                  | ':' :: rest8 =>
                    match parseFixedDigits 2 rest8 with
                    | none => none
                    | some (mi, rest9) =>
                      match rest9 with
                      | ':' :: rest10 =>
                        match parseFixedDigits 2 rest10 with
                        | some (s, []) =>
                          if validDate y mo d && h < 24 && mi < 60 && s < 60 then
                            some (y, mo, d, h, mi, s)
                          else none
                        | _ => none
                      | _ => none
                  | _ => none
              else none
            | [] => none
        | _ => none
    | _ => none

/-- Polars `cast(pl.Utf8)` of a cell: `none` for null, otherwise the
rendered string. -/
def castUtf8 : Value → Option (List Char)
  | .vNull => none
  | .vStr s => some s.data
  | .vInt n => some (intRenderChars n)
  | .vNum m e => some (renderDecChars m e)
  | .vBool b => some (if b then "true".data else "false".data)
  | .vDate y m d => some (renderDateChars y m d)
  | .vDatetime y mo d h mi s => some (renderDatetimeChars y mo d h mi s)

/-! ### The type-coercion stage (`TypeCoercion.process_dataframe`) -/

/-- The canonical types modelled (the subset the claims exercise). -/
inductive CanonType where
  | ctInteger | ctNumber | ctBoolean | ctDate | ctDatetime | ctString
  deriving DecidableEq

/-- A field's schema type specification as handed to `TypeCoercion`:
either a bare string (`"integer"`, `"date"`, …) or a JSON-schema-style
pair of `type` and `format`. -/
inductive TypeSpec where
  | simple : String → TypeSpec
  | objFmt : String → String → TypeSpec
  deriving DecidableEq

/-- `_normalize_type` restricted to the modelled canonical types:
`float`/`double` collapse to number, `timestamp` to datetime, and
`string` with a date/datetime format becomes date/datetime.  `decimal`
and `binary` normalize to `none` here (pass-through in this model). -/
def normalizeType : TypeSpec → Option CanonType
  | .simple s =>
    let l := s.data.map Char.toLower
    if l = "float".data ∨ l = "double".data then some .ctNumber
    else if l = "timestamp".data then some .ctDatetime
    else if l = "integer".data then some .ctInteger
    else if l = "number".data then some .ctNumber
    else if l = "boolean".data then some .ctBoolean
    else if l = "date".data then some .ctDate
    else if l = "datetime".data then some .ctDatetime
    else if l = "string".data then some .ctString
    else none
  | .objFmt t fmt =>
    let tl := t.data.map Char.toLower
    let fl := fmt.data.map Char.toLower
    if tl = "float".data ∨ tl = "double".data then some .ctNumber
    else if tl = "string".data ∧ fl = "date".data then some .ctDate
    else if tl = "string".data ∧
        (fl = "datetime".data ∨ fl = "date-time".data ∨ fl = "timestamp".data) then
      some .ctDatetime
    else if tl = "integer".data then some .ctInteger
    else if tl = "number".data then some .ctNumber
    else if tl = "boolean".data then some .ctBoolean
    else if tl = "string".data then some .ctString
    else none

/-- The state of a constructed `TypeCoercion` preprocessor: normalized
per-field specs, and per-field null-token lists. -/
structure TC where
  specs : List (String × CanonType)
  nulls : List (String × List String)
  deriving DecidableEq

/-- `TypeCoercion.__init__`: normalize each field's type spec, dropping
fields whose spec does not normalize. -/
def TC.ofTypes (types : List (String × TypeSpec)) (nulls : List (String × List String)) : TC :=
  ⟨types.filterMap (fun p => (normalizeType p.2).map (fun c => (p.1, c))), nulls⟩

/-- The null tokens configured for a field. -/
def TC.tokensFor (tc : TC) (f : String) : List String :=
  (assocGet tc.nulls f).getD []

/-- The `_nullify` expression: a cell is null when it is null, blank after
trimming, or (the untrimmed cast string) matches a null token; otherwise the
original cell passes through. -/
def TC.nullify (tc : TC) (f : String) (v : Value) : Option Value :=
  match castUtf8 v with
  | none => none
  | some cs =>
    if trimChars cs = [] then none
    else if (tc.tokensFor f).any (fun t => t.data = cs) then none
    else some v

/-- The boolean truth tokens (`_TRUE`), lowercased. -/
def trueTokens : List (List Char) :=
  ["true".data, "t".data, "yes".data, "y".data, "1".data]

/-- The boolean falsity tokens (`_FALSE`), lowercased. -/
def falseTokens : List (List Char) :=
  ["false".data, "f".data, "no".data, "n".data, "0".data]

/-- Whether the original cell is a Python/polars string (`is_str` in the
date and datetime branches, computed on the raw column). -/
def isStrVal : Value → Bool
  | .vStr _ => true
  | _ => false

/-- Whether the original cell is a Python datetime (`is_py_dt`). -/
def isDatetimeVal : Value → Bool
  | .vDatetime _ _ _ _ _ _ => true
  | _ => false

/-- Signed 64-bit range check applied by `cast(pl.Int64, strict=False)`:
out-of-range values become null. -/
def inInt64 (t : Int) : Bool := -(2 ^ 63) ≤ t && t < 2 ^ 63

/-- Fuel-based floor-log₂ (structural, so the kernel can evaluate it). -/
def log2Aux : Nat → Nat → Nat
  | 0, _ => 0
  | fuel + 1, n => if n ≤ 1 then 0 else log2Aux fuel (n / 2) + 1

/-- `⌊log₂ n⌋` for `n ≥ 1` (0 at 0). -/
def natLog2 (n : Nat) : Nat := log2Aux n n

/-- Round a natural number to the nearest IEEE-754 binary64 value: numbers
up to `2 ^ 53` are exactly representable; above that, round to the nearest
multiple of `2 ^ (⌊log₂ m⌋ - 52)` with ties to even. -/
def f64RoundNat (m : Nat) : Nat :=
  if m ≤ 2 ^ 53 then m
  else
    let g := 2 ^ (natLog2 m - 52)
    let q := m / g
    let r := m % g
    let q2 :=
      if 2 * r < g then q
      else if g < 2 * r then q + 1
      else if q % 2 = 0 then q else q + 1
    q2 * g

/-- The `Float64` round-trip an integer value takes through the cast chain
(rounding is sign-symmetric). -/
def f64RoundInt (t : Int) : Int :=
  if t < 0 then -(f64RoundNat t.natAbs : Int) else (f64RoundNat t.natAbs : Int)

theorem f64RoundNat_small {m : Nat} (h : m ≤ 2 ^ 53) : f64RoundNat m = m := by
  unfold f64RoundNat
  rw [if_pos h]

theorem f64RoundInt_small {t : Int} (h : t.natAbs ≤ 2 ^ 53) : f64RoundInt t = t := by
  unfold f64RoundInt
  rw [f64RoundNat_small h]
  split <;> omega

/-- One column cell through the stage's cast expression for its declared
type.  Mirrors the per-type branches of `process_dataframe`; a null result
is polars' null. -/
def TC.coerceCell (tc : TC) (ty : CanonType) (f : String) (v : Value) : Value :=
  match tc.nullify f v with
  | none => .vNull
  | some sv =>
    match ty with
    | .ctInteger =>
      match castUtf8 sv with
      | none => .vNull
      | some cs =>
        match parseDecChars (normNumericChars cs) with
        | none => .vNull
        | some (m, e) =>
          let t := f64RoundInt (Int.tdiv m ((10 : Int) ^ e))
          if inInt64 t then .vInt t else .vNull
    | .ctNumber =>
      match castUtf8 sv with
      | none => .vNull
      | some cs =>
        match parseDecChars (normNumericChars cs) with
        | none => .vNull
        | some (m, e) => .vNum m e
    | .ctBoolean =>
      match castUtf8 sv with
      | none => .vNull
      | some cs =>
        let lowered := (trimChars cs).map Char.toLower
        if lowered ∈ trueTokens then .vBool true
        else if lowered ∈ falseTokens then .vBool false
        else .vNull
    | .ctDate =>
      if isStrVal v then
        match castUtf8 sv with
        | none => .vNull
        | some cs =>
          match (parseDateCandidates cs).orElse (fun _ => parseDateFallback cs) with
          | some (y, m, d) => .vDate y m d
          | none => .vNull
      else .vNull
    | .ctDatetime =>
      if isStrVal v then
        match castUtf8 sv with
        | none => .vNull
        | some cs =>
          match parseDatetimeChars cs with
          | some (y, mo, d, h, mi, s) => .vDatetime y mo d h mi s
          | none => .vNull
      else if isDatetimeVal v then sv
      else .vNull
    | .ctString =>
      match castUtf8 sv with
      | none => .vNull
      | some cs => .vStr (String.mk cs)

/-- The declared fields actually present in the batch's columns, in spec
order (the `if field not in df.columns: continue` filter). -/
def TC.declared (tc : TC) (cols : List String) : List (String × CanonType) :=
  tc.specs.filter (fun p => p.1 ∈ cols)

/-- `with_columns` over the cast expressions: each declared column is
replaced in place by its coerced value; other columns are untouched. -/
def TC.typedRow (tc : TC) (cols : List String) (r : Row) : Row :=
  r.map (fun p =>
    match assocGet (tc.declared cols) p.1 with
    | some ty => (p.1, tc.coerceCell ty p.1 p.2)
    | none => p)

/-- The per-field invalid mask (`__nb__<field> && <field>.is_null()` of the
generic post-cast check): the raw cell was non-blank but the cast produced
null.  String columns never flag. -/
def TC.cellFlag (tc : TC) (f : String) (ty : CanonType) (r : Row) : Bool :=
  ty ≠ .ctString &&
    (tc.nullify f ((assocGet r f).getD .vNull)).isSome &&
    tc.coerceCell ty f ((assocGet r f).getD .vNull) = .vNull

/-- The row-invalidity mask: the OR across declared non-string columns. -/
def TC.rowBad (tc : TC) (cols : List String) (r : Row) : Bool :=
  (tc.declared cols).any (fun p => tc.cellFlag p.1 p.2 r)

/-- The first declared non-string field present in the batch: the field
whose `__nb__` helper column polars reports as missing when the
error-building `select` runs. -/
def TC.firstFlagCol (tc : TC) (cols : List String) : String :=
  (((tc.declared cols).filter
      (fun p => !(p.2 == CanonType.ctString))).headD ("", CanonType.ctString)).1

/-- `TypeCoercion.process_dataframe`.  On a batch with no invalid row the
typed rows come back and `_df_errors` is left empty.  On a batch with any
invalid row the error-building branch runs: it has already dropped the
`__nb__*` helper columns from `bad` (`good.drop` / `bad.drop`), yet then
selects per-field flag expressions that reference them, so polars raises
`ColumnNotFoundError` for the first such column — the stage never returns
and the exception propagates to the caller. -/
def TC.processDataframe (tc : TC) (cols : List String) (rows : List Row) :
    Except String (List Row × List (Row × String)) :=
  if tc.specs.isEmpty || rows.isEmpty then .ok (rows, [])
  else if rows.any (fun r => tc.rowBad cols r) then
    .error ("ColumnNotFoundError: __nb__" ++ tc.firstFlagCol cols)
  else .ok (rows.map (tc.typedRow cols), [])

/-- `process_dataframe` preserves each surviving row's column names
(`with_columns` replaces values in place). -/
theorem typedRow_keys (tc : TC) (cols : List String) (r : Row) :
    rowKeys (tc.typedRow cols r) = rowKeys r := by
  unfold rowKeys TC.typedRow
  rw [List.map_map]
  apply List.map_congr_left
  intro p _
  cases h : assocGet (tc.declared cols) p.1 <;> simp [h]

/-- What a *successful* `process_dataframe` returns: the whole batch, typed
in place (empty error list, one output row per input row, column names
preserved). -/
theorem processDataframe_ok {tc : TC} {cols : List String} {rows : List Row}
    {res : List Row × List (Row × String)}
    (h : tc.processDataframe cols rows = .ok res) :
    res.2 = [] ∧ res.1.length = rows.length ∧
      ∀ r2 ∈ res.1, ∃ r0 ∈ rows, rowKeys r2 = rowKeys r0 := by
  unfold TC.processDataframe at h
  by_cases hemp : tc.specs.isEmpty || rows.isEmpty
  · rw [if_pos hemp] at h
    injection h with h
    rw [← h]
    exact ⟨rfl, rfl, fun r2 h2 => ⟨r2, h2, rfl⟩⟩
  · rw [if_neg hemp] at h
    by_cases hbad : rows.any (fun r => tc.rowBad cols r)
    · rw [if_pos hbad] at h
      cases h
    · rw [if_neg hbad] at h
      injection h with h
      rw [← h]
      refine ⟨rfl, List.length_map _ _, ?_⟩
      intro r2 h2
      obtain ⟨r0, hr0, hr2⟩ := List.mem_map.mp h2
      exact ⟨r0, hr0, by rw [← hr2, typedRow_keys]⟩

/-! #### Idempotence of the stage on typed cells -/

/-- A cell that already carries its canonical typed value for a column type
(or null).  Integer cells must sit within `±2 ^ 53` — the range the
`Float64` round-trip of the cast chain preserves exactly (larger magnitudes
are corrupted on re-application; see the C4 counterexample); string cells
must be non-blank (a blank string would be nullified).  Date cells are
never of this shape for the stage's re-entry — see the C4 counterexample. -/
def typedCell : CanonType → Value → Bool
  | _, .vNull => true
  | .ctInteger, .vInt n => decide (n.natAbs ≤ 2 ^ 53)
  | .ctNumber, .vNum _ _ => true
  | .ctBoolean, .vBool _ => true
  | .ctString, .vStr s => !(trimChars s.data).isEmpty
  | .ctDatetime, .vDatetime _ _ _ _ _ _ => true
  | _, _ => false

theorem tokensFor_of_empty {tc : TC} (hnul : tc.nulls = []) (f : String) :
    tc.tokensFor f = [] := by
  unfold TC.tokensFor
  rw [hnul]
  rfl

theorem nullify_of_clean {tc : TC} {f : String} {v : Value} {w : List Char}
    (hc : castUtf8 v = some w) (htr : trimChars w = w) (hne : w ≠ [])
    (ht : tc.tokensFor f = []) : tc.nullify f v = some v := by
  have hstep : tc.nullify f v
      = if trimChars w = [] then none
        else if (tc.tokensFor f).any (fun t => t.data = w) then none else some v := by
    unfold TC.nullify
    rw [hc]
  rw [hstep, htr, if_neg hne, ht]
  rfl

theorem intRender_eq_renderDec0 (m : Int) : intRenderChars m = renderDecChars m 0 := by
  unfold renderDecChars
  rw [if_pos rfl]

/-- Re-coercing a cell that already carries its canonical typed value is the
identity, for every modelled type except `date`. -/
theorem coerce_typed_cell (tc : TC) (hnul : tc.nulls = []) (ty : CanonType)
    (hty : ty ≠ CanonType.ctDate) (f : String) (v : Value)
    (hv : typedCell ty v = true) : tc.coerceCell ty f v = v := by
  have ht := tokensFor_of_empty hnul f
  cases v with
  | vNull =>
    unfold TC.coerceCell TC.nullify
    rfl
  | vInt n =>
    cases ty <;> simp only [typedCell] at hv <;> try exact Bool.noConfusion hv
    case ctInteger =>
      have hnull : tc.nullify f (.vInt n) = some (.vInt n) := by
        refine nullify_of_clean (v := .vInt n) (w := intRenderChars n) rfl ?_ ?_ ht
        · rw [intRender_eq_renderDec0]
          exact trimChars_no_ws (renderDec_no_ws n 0)
        · rw [intRender_eq_renderDec0]
          exact renderDec_ne_nil n 0
      unfold TC.coerceCell
      rw [hnull]
      simp only [castUtf8, normNumeric_intRender, parseDecChars_intRender]
      have hb : n.natAbs ≤ 2 ^ 53 := of_decide_eq_true hv
      have h64 : inInt64 n = true := by
        unfold inInt64
        simp only [Bool.and_eq_true, decide_eq_true_eq]
        have e53 : (2 : Nat) ^ 53 = 9007199254740992 := by norm_num
        have e63 : (2 : Int) ^ 63 = 9223372036854775808 := by norm_num
        rw [e53] at hb
        rw [e63]
        constructor <;> omega
      rw [show ((10 : Int) ^ (0 : Nat)) = 1 from rfl, Int.tdiv_one,
        f64RoundInt_small hb, if_pos h64]
  | vNum m e =>
    cases ty <;> simp only [typedCell] at hv <;> try exact Bool.noConfusion hv
    case ctNumber =>
      have hnull : tc.nullify f (.vNum m e) = some (.vNum m e) := by
        refine nullify_of_clean (v := .vNum m e) (w := renderDecChars m e) rfl ?_ ?_ ht
        · exact trimChars_no_ws (renderDec_no_ws m e)
        · exact renderDec_ne_nil m e
      unfold TC.coerceCell
      rw [hnull]
      simp only [castUtf8, normNumeric_renderDec, parseDecChars_renderDec]
  | vBool b =>
    cases ty <;> simp only [typedCell] at hv <;> try exact Bool.noConfusion hv
    case ctBoolean =>
      have hnull : tc.nullify f (.vBool b) = some (.vBool b) := by
        refine nullify_of_clean (v := .vBool b)
          (w := if b then "true".data else "false".data) ?_ ?_ ?_ ht
        · cases b <;> rfl
        · cases b <;> rfl
        · cases b <;> simp
      unfold TC.coerceCell
      rw [hnull]
      cases b <;> rfl
  | vStr s =>
    cases ty <;> simp only [typedCell] at hv <;> try exact Bool.noConfusion hv
    case ctString =>
      have hne : ¬ trimChars s.data = [] := by simpa using hv
      have hnull : tc.nullify f (.vStr s) = some (.vStr s) := by
        have hstep : tc.nullify f (.vStr s)
            = if trimChars s.data = [] then none
              else if (tc.tokensFor f).any (fun t => t.data = s.data) then none
              else some (.vStr s) := by
          unfold TC.nullify
          rfl
        rw [hstep, if_neg hne, ht]
        rfl
      unfold TC.coerceCell
      rw [hnull]
      simp only [castUtf8]
  | vDate y m d =>
    cases ty <;> simp only [typedCell] at hv <;> exact Bool.noConfusion hv
  | vDatetime y mo d h mi s =>
    cases ty <;> simp only [typedCell] at hv <;> try exact Bool.noConfusion hv
    case ctDatetime =>
      obtain ⟨htr, hne⟩ := trim_renderDatetime y mo d h mi s
      have hnull : tc.nullify f (.vDatetime y mo d h mi s)
          = some (.vDatetime y mo d h mi s) :=
        nullify_of_clean (v := .vDatetime y mo d h mi s) rfl htr hne ht
      unfold TC.coerceCell
      rw [hnull]
      rfl

theorem assocGet_mem {α : Type} {l : List (String × α)} {k : String} {x : α}
    (h : assocGet l k = some x) : (k, x) ∈ l := by
  induction l with
  | nil => cases h
  | cons p rest ih =>
    unfold assocGet at h
    by_cases hk : p.1 = k
    · rw [if_pos hk] at h
      injection h with hx
      have hp : p = (k, x) := by
        cases p
        simp only at hk hx
        rw [hk, hx]
      rw [hp]
      exact List.mem_cons_self _ _
    · rw [if_neg hk] at h
      exact List.mem_cons_of_mem p (ih h)

theorem assocGet_of_mem_nodup {α : Type} {l : List (String × α)} {k : String} {x : α}
    (hmem : (k, x) ∈ l) (hnd : (l.map (·.1)).Nodup) : assocGet l k = some x := by
  induction l with
  | nil => cases hmem
  | cons p rest ih =>
    rcases List.mem_cons.mp hmem with h | h
    · subst h
      unfold assocGet
      rw [if_pos rfl]
    · unfold assocGet
      by_cases hk : p.1 = k
      · exfalso
        simp only [List.map_cons, List.nodup_cons] at hnd
        exact hnd.1 (hk ▸ (List.mem_map.mpr ⟨(k, x), h, rfl⟩))
      · rw [if_neg hk]
        exact ih h (by simp only [List.map_cons, List.nodup_cons] at hnd; exact hnd.2)

theorem nullify_null (tc : TC) (f : String) : tc.nullify f Value.vNull = none := rfl

/-- Applying the stage to a batch of already-typed cells (no date columns,
no null tokens) returns successfully: the identity on the rows, with an
empty rejection list. -/
theorem processDataframe_typed (tc : TC) (cols : List String) (rows : List Row)
    (hnul : tc.nulls = [])
    (hdate : ∀ p ∈ tc.specs, p.2 ≠ CanonType.ctDate)
    (hnodup : ∀ r ∈ rows, (rowKeys r).Nodup)
    (htyped : ∀ r ∈ rows, ∀ p ∈ tc.declared cols,
        typedCell p.2 ((assocGet r p.1).getD Value.vNull) = true) :
    tc.processDataframe cols rows = .ok (rows, []) := by
  unfold TC.processDataframe
  by_cases hemp : tc.specs.isEmpty || rows.isEmpty
  · rw [if_pos hemp]
  · rw [if_neg hemp]
    have hbad : ∀ r ∈ rows, tc.rowBad cols r = false := by
      intro r hr
      unfold TC.rowBad
      rw [List.any_eq_false]
      intro p hp
      have hty := htyped r hr p hp
      have hnd : p.2 ≠ CanonType.ctDate :=
        hdate p (List.mem_of_mem_filter hp)
      unfold TC.cellFlag
      by_cases hnull : (assocGet r p.1).getD Value.vNull = Value.vNull
      · rw [hnull, nullify_null]
        simp
      · have hco := coerce_typed_cell tc hnul p.2 hnd p.1 _ hty
        rw [hco]
        simp [hnull]
    have hid : ∀ r ∈ rows, tc.typedRow cols r = r := by
      intro r hr
      unfold TC.typedRow
      conv_rhs => rw [← List.map_id r]
      apply List.map_congr_left
      intro p hpr
      cases hdec : assocGet (tc.declared cols) p.1 with
      | none => simp
      | some ty =>
        simp only [id]
        have hmemd := assocGet_mem hdec
        have hget : assocGet r p.1 = some p.2 := by
          apply assocGet_of_mem_nodup _ (hnodup r hr)
          cases p
          exact hpr
        have hty := htyped r hr (p.1, ty) hmemd
        rw [hget] at hty
        have hnd : ty ≠ CanonType.ctDate :=
          hdate (p.1, ty) (List.mem_of_mem_filter hmemd)
        have hco := coerce_typed_cell tc hnul ty hnd p.1 p.2 hty
        rw [hco]
    have hany : rows.any (fun r => tc.rowBad cols r) = false := by
      rw [List.any_eq_false]
      intro r hr
      simp [hbad r hr]
    rw [if_neg (by simp [hany])]
    rw [show rows.map (tc.typedRow cols) = rows.map id from
      List.map_congr_left (fun r hr => hid r hr), List.map_id]

/-! ### The Parquet sink (`PQOutput`)

Vectorized mode (the engine default): rows are buffered per table on
`write` and written once at `close`.  `skipped` and `writeLog` are ghost
instrumentation (see the header comment). -/

/-- The reserved internal-flag prefix (`__forklift_`). -/
def reservedKey (k : String) : Bool := k.data.take 11 = "__forklift_".data

/-- Python truthiness of a cell value (`if row.get("__forklift_skip__"):`,
`row.get("_table") or "data"`). -/
def valueTruthy : Value → Bool
  | .vNull => false
  | .vBool b => b
  | .vStr s => !s.data.isEmpty
  | .vInt n => n ≠ 0
  | .vNum m _ => m ≠ 0
  | .vDate _ _ _ => true
  | .vDatetime _ _ _ _ _ _ => true

/-- `row.get("_table") or "data"`: the buffer key for a written row.
The engine always sets `_table` to a string; non-string table cells are
outside the modelled scope and fall back to `"data"` here. -/
def tableKeyOf (r : Row) : String :=
  match assocGet r "_table" with
  | some (.vStr t) => if t.data.isEmpty then "data" else t
  | _ => "data"

/-- `{k: v for k, v in row.items() if not k.startswith("__forklift_")}`. -/
def cleanRow (r : Row) : Row := r.filter (fun p => !reservedKey p.1)

/-- Append a row to the buffer of a table
(`self.row_buffers.setdefault(table_name, []).append(...)`). -/
def bufAppend (bufs : List (String × List Row)) (k : String) (r : Row) :
    List (String × List Row) :=
  match bufs with
  | [] => [(k, [r])]
  | (k0, l) :: rest =>
    if k0 = k then (k0, l ++ [r]) :: rest else (k0, l) :: bufAppend rest k r

/-- `Path(name).name` with path separators replaced, as
`PQOutput._sanitize_table_name` does. -/
def sanitizeTableName (n : String) : String :=
  let base := ((n.data.reverse.takeWhile (fun c => ¬ c = '/')).reverse)
  String.mk (base.map (fun c => if c = '\\' then '_' else c))

/-- The column list `pa.Table.from_pylist` infers for a batch of uniform
rows: the first row's keys. -/
def colsOf (rows : List Row) : List String :=
  match rows with
  | [] => []
  | r :: _ => rowKeys r

theorem colsOf_mem {rows : List Row} (h : rows ≠ []) :
    ∃ r ∈ rows, colsOf rows = rowKeys r := by
  cases rows with
  | nil => exact absurd rfl h
  | cons r rs => exact ⟨r, List.mem_cons_self r rs, rfl⟩

/-- The observable state of a `PQOutput` sink.  `skipped`, `writeLog` and
`failure` are ghost instrumentation: `failure` records the message of the
first exception that propagated (a `ColumnNotFoundError` raised by the
coercion stage's error path), after which row processing stops. -/
structure SinkState where
  read : Nat
  kept : Nat
  rejected : Nat
  skipped : Nat
  buffers : List (String × List Row)
  qlines : List (Row × String)
  typeMap : List (String × TypeSpec)
  filesWritten : List String
  parquet : List (String × List String)
  manifest : Option (Nat × Nat × Nat)
  writeLog : List Row
  failure : Option String

/-- `self._has_validation = bool(self._type_map)`. -/
def SinkState.hasValidation (st : SinkState) : Bool := !st.typeMap.isEmpty

/-- `PQOutput.open`: zero counters, open (create) the quarantine file, and
precompute the schema type map from the schema's `fields` entries that
carry both a name and a type. -/
def SinkState.openSink (fields : List (String × TypeSpec)) : SinkState :=
  ⟨0, 0, 0, 0, [], [], fields, ["_quarantine.jsonl"], [], none, [], none⟩

/-- `PQOutput.write`: count `read`; drop (but count) skip-flagged rows;
strip reserved keys and buffer the rest; count `kept` immediately only
when no deferred validation is configured. -/
def SinkState.write (st : SinkState) (r : Row) : SinkState :=
  let st1 := { st with writeLog := st.writeLog ++ [r], read := st.read + 1 }
  if valueTruthy ((assocGet r "__forklift_skip__").getD .vNull) then
    { st1 with skipped := st1.skipped + 1 }
  else
    let st2 := { st1 with buffers := bufAppend st1.buffers (tableKeyOf r) (cleanRow r) }
    if st2.hasValidation then st2 else { st2 with kept := st2.kept + 1 }

/-- `PQOutput.quarantine`: count `read` and `rejected`, append the
`(row, error)` line to the quarantine file. -/
def SinkState.quarantine (st : SinkState) (r : Row) (e : String) : SinkState :=
  { st with
    read := st.read + 1
    rejected := st.rejected + 1
    qlines := st.qlines ++ [(r, e)] }

/-- One table's turn in `_flush_vectorized` when validation is configured:
re-run the coercion stage over the buffered rows (`_validate_rows`).  On a
successful return the stage's error list is empty, every row is counted
kept, and a parquet file is emitted; a batch with any invalid row makes the
stage raise, and the exception propagates. -/
def flushValidatedTable (typeMap : List (String × TypeSpec)) (st : SinkState)
    (tn : String) (rows : List Row) : Except String SinkState :=
  if rows.isEmpty then .ok st
  else
    let tc := TC.ofTypes typeMap []
    match tc.processDataframe (colsOf rows) rows with
    | .error e => .error e
    | .ok res =>
      .ok { st with
        qlines := st.qlines ++ res.2
        kept := st.kept + res.1.length
        rejected := st.rejected + res.2.length
        parquet :=
          if res.1.isEmpty then st.parquet
          else st.parquet ++ [(sanitizeTableName tn ++ ".parquet", colsOf res.1)] }

/-- Clear one table's buffer (`rows.clear()` at the end of its loop turn). -/
def clearBuf (bufs : List (String × List Row)) (k : String) :
    List (String × List Row) :=
  bufs.map (fun p => if p.1 = k then (p.1, ([] : List Row)) else p)

/-- The validated flush loop over the buffered tables: each table in turn,
its buffer cleared on success; the first raising table aborts the loop,
recording the propagating exception. -/
def flushValTables (tm : List (String × TypeSpec)) (st : SinkState) :
    List (String × List Row) → SinkState
  | [] => st
  | p :: rest =>
    match flushValidatedTable tm st p.1 p.2 with
    | .ok s => flushValTables tm { s with buffers := clearBuf s.buffers p.1 } rest
    | .error e => { st with failure := some e }

/-- `PQOutput._flush_vectorized`: with validation, validate and write per
table (stopping at the first raising table); without, write each non-empty
buffer directly and clear every buffer. -/
def SinkState.flushVectorized (st : SinkState) : SinkState :=
  if st.hasValidation then flushValTables st.typeMap st st.buffers
  else
    { st with
      parquet := st.parquet ++ st.buffers.filterMap (fun p =>
        if p.2.isEmpty then none
        else some (sanitizeTableName p.1 ++ ".parquet", colsOf p.2))
      buffers := st.buffers.map (fun p => (p.1, [])) }

/-- `PQOutput.close`: flush, then — in the `finally`, so also when the
flush raised — write the manifest with the counters as they stand. -/
def SinkState.close (st : SinkState) : SinkState :=
  let st1 := st.flushVectorized
  { st1 with
    filesWritten := st1.filesWritten ++ ["_manifest.json"]
    manifest := some (st1.read, st1.kept, st1.rejected) }

/-- A sink call as made by the pipeline driver. -/
inductive SinkEv where
  | write : Row → SinkEv
  | quar : Row → String → SinkEv

/-- Replay a sequence of driver calls against the sink. -/
def SinkState.applyEvents (st : SinkState) (evs : List SinkEv) : SinkState :=
  evs.foldl (fun s ev =>
    match ev with
    | .write r => s.write r
    | .quar r e => s.quarantine r e) st

/-! ### The pipeline driver (`Engine`) -/

/-- Engine configuration, as derived in `Engine.__init__` from the schema:
required fields, the `x-csv.dedupe.keys` tuple, the `x-csv.nulls`
permissiveness flag, the preprocessor chain (either a single type-coercion
stage or none), and the processing chunk size. -/
structure EngineCfg where
  required : List String
  allowRequiredNulls : Bool
  dedupeKeys : List String
  tc : Option TC
  chunkSize : Nat

/-- `Engine._required_ok`: a required column passes when absent from the
header; a present null or blank-string value fails unless nulls are
allowed. -/
def requiredOk (cfg : EngineCfg) (r : Row) : Bool :=
  cfg.required.all (fun f =>
    match assocGet r f with
    | none => true
    | some v =>
      match v with
      | .vNull => cfg.allowRequiredNulls
      | .vStr s => if trimChars s.data = [] then cfg.allowRequiredNulls else true
      | _ => true)

/-- `row["_table"] = table_name`. -/
def withTable (n : String) (r : Row) : Row := rowInsert r "_table" (.vStr n)

/-- The dedup key tuple: `tuple(row.get(k) for k in keys)` — a missing
field contributes `None`, exactly like a null-valued one. -/
def keyOf (ks : List String) (r : Row) : List Value :=
  ks.map (fun k => (assocGet r k).getD .vNull)

/-- The accepted-row half of `Engine._process_dataframe_rows`: tag each row
with `_table`, run the required check, then the dedup check against the
`seen_keys` set; later occurrences of a seen key are yielded accepted but
marked with the skip flag.  Returns the row results (`none` error means
accepted) and the grown seen set. -/
def processAccepted (cfg : EngineCfg) (n : String) :
    List Row → List (List Value) → List (Row × Option String) × List (List Value)
  | [], seen => ([], seen)
  | r :: rs, seen =>
    let r1 := withTable n r
    if ¬ requiredOk cfg r1 then
      let p := processAccepted cfg n rs seen
      ((r1, some "missing required field") :: p.1, p.2)
    else if cfg.dedupeKeys.isEmpty then
      let p := processAccepted cfg n rs seen
      ((r1, none) :: p.1, p.2)
    else if keyOf cfg.dedupeKeys r1 ∈ seen then
      let p := processAccepted cfg n rs seen
      ((rowInsert r1 "__forklift_skip__" (.vBool true), none) :: p.1, p.2)
    else
      let p := processAccepted cfg n rs (keyOf cfg.dedupeKeys r1 :: seen)
      ((r1, none) :: p.1, p.2)

/-- `Engine._apply_preprocessors_dataframe` for the modelled chain: the
type-coercion stage if configured (whose raise propagates), else identity
with no stage errors. -/
def applyPre (cfg : EngineCfg) (batch : List Row) :
    Except String (List Row × List (Row × String)) :=
  match cfg.tc with
  | none => .ok (batch, [])
  | some tc => tc.processDataframe (colsOf batch) batch

/-- Route one chunk's results to the sink: stage errors first (each tagged
with `_table`), then the per-row results; accepted rows go to `write`,
errored ones to `quarantine`. -/
def emitResults (st : SinkState) (res : List (Row × Option String)) : SinkState :=
  res.foldl (fun s p =>
    match p.2 with
    | none => s.write p.1
    | some e => s.quarantine p.1 e) st

/-- One buffered chunk through preprocessors, row processing and emission
(the body of the buffer-flush in `Engine.run`).  After an exception has
propagated nothing further runs; a raising preprocessor records the
exception and processes no rows of the chunk. -/
def runChunk (cfg : EngineCfg) (n : String) (acc : SinkState × List (List Value))
    (chunk : List Row) : SinkState × List (List Value) :=
  if acc.1.failure.isSome then acc
  else
    match applyPre cfg chunk with
    | .error e => ({ acc.1 with failure := some e }, acc.2)
    | .ok pre =>
      let errsT : List (Row × Option String) :=
        pre.2.map (fun pe => (withTable n pe.1, some pe.2))
      let p := processAccepted cfg n pre.1 acc.2
      (emitResults acc.1 (errsT ++ p.1), p.2)

/-- The buffer loop of `Engine.run`: accumulate rows, flushing a chunk
whenever the buffer reaches `sz` (`if len(buffer) >= chunk_size`), with the
residual buffer flushed at exhaustion. -/
def chunksOfAux (sz : Nat) : List Row → List Row → List (List Row)
  | acc, [] => if acc.isEmpty then [] else [acc.reverse]
  | acc, r :: rs =>
    if sz ≤ (r :: acc).length then (r :: acc).reverse :: chunksOfAux sz [] rs
    else chunksOfAux sz (r :: acc) rs

/-- Split a table's rows into processing chunks of size `sz`
(`sz = 0` behaves as 1, as flushing at `len(buffer) >= 0` would). -/
def chunksOf (sz : Nat) (l : List Row) : List (List Row) := chunksOfAux sz [] l

/-- One table through `Engine.run`: a fresh `seen_keys` set, then each
chunk in turn. -/
def runTable (cfg : EngineCfg) (st : SinkState) (n : String) (rows : List Row) :
    SinkState :=
  ((chunksOf cfg.chunkSize rows).foldl (runChunk cfg n) (st, [])).1

/-- All tables through the run loop (sink already open, close not yet
called). -/
def runTables (cfg : EngineCfg) (st : SinkState)
    (tables : List (String × List Row)) : SinkState :=
  tables.foldl (fun s t => runTable cfg s t.1 t.2) st

/-- `Engine.run`: open the sink, process every table, close the sink. -/
def engineRun (cfg : EngineCfg) (fields : List (String × TypeSpec))
    (tables : List (String × List Row)) : SinkState :=
  (runTables cfg (SinkState.openSink fields) tables).close

/-! #### Failing runs

A source item either yields a row or raises; the `try/finally` of
`Engine.run` guarantees `close` on either path.  When iteration raises
mid-buffer, the partial buffer is discarded (only buffers that reached the
chunk size were flushed before the error). -/

/-- The rows before the first error, and the error if any. -/
def splitFirstError : List (Except String Row) → List Row × Option String
  | [] => ([], none)
  | .ok r :: rest =>
    let p := splitFirstError rest
    (r :: p.1, p.2)
  | .error e :: _ => ([], some e)

/-- The chunks actually processed when iteration stops early: a trailing
partial buffer never reaches the flush condition. -/
def completedChunks (sz : Nat) (cs : List (List Row)) : List (List Row) :=
  match cs.getLast? with
  | some l => if l.length < max sz 1 then cs.dropLast else cs
  | none => cs

/-- One table when its row iterator may raise. -/
def runTableE (cfg : EngineCfg) (st : SinkState) (n : String)
    (items : List (Except String Row)) : SinkState × Option String :=
  let p := splitFirstError items
  match p.2 with
  | none => (runTable cfg st n p.1, none)
  | some e =>
    let cs := completedChunks cfg.chunkSize (chunksOf cfg.chunkSize p.1)
    ((cs.foldl (runChunk cfg n) (st, [])).1, some e)

/-- The table loop under failures: a raised error aborts the loop. -/
def runTablesE (cfg : EngineCfg) (st : SinkState) :
    List (String × List (Except String Row)) → SinkState × Option String
  | [] => (st, none)
  | t :: rest =>
    match runTableE cfg st t.1 t.2 with
    | (st1, none) => runTablesE cfg st1 rest
    | (st1, some e) => (st1, some e)

/-- `Engine.run` with a possibly-failing source: whatever happens after the
sink opened, the `finally` closes it. -/
def engineRunE (cfg : EngineCfg) (fields : List (String × TypeSpec))
    (tables : List (String × List (Except String Row))) : SinkState × Option String :=
  let p := runTablesE cfg (SinkState.openSink fields) tables
  (p.1.close, p.2)

/-! ### Infrastructure: fields the driver never touches

`write` and `quarantine` leave the schema map, the files on disk, the
emitted parquet files and the manifest alone; only `close` changes the
latter three. -/

theorem write_stable (st : SinkState) (r : Row) :
    (st.write r).typeMap = st.typeMap ∧
    (st.write r).filesWritten = st.filesWritten ∧
    (st.write r).parquet = st.parquet ∧
    (st.write r).manifest = st.manifest ∧
    (st.write r).qlines = st.qlines := by
  unfold SinkState.write
  dsimp only
  split
  · exact ⟨rfl, rfl, rfl, rfl, rfl⟩
  · split
    · exact ⟨rfl, rfl, rfl, rfl, rfl⟩
    · exact ⟨rfl, rfl, rfl, rfl, rfl⟩

theorem quarantine_stable (st : SinkState) (r : Row) (e : String) :
    (st.quarantine r e).typeMap = st.typeMap ∧
    (st.quarantine r e).filesWritten = st.filesWritten ∧
    (st.quarantine r e).parquet = st.parquet ∧
    (st.quarantine r e).manifest = st.manifest :=
  ⟨rfl, rfl, rfl, rfl⟩

theorem write_failure (st : SinkState) (r : Row) : (st.write r).failure = st.failure := by
  unfold SinkState.write
  dsimp only
  split
  · rfl
  · split <;> rfl

theorem quarantine_failure (st : SinkState) (r : Row) (e : String) :
    (st.quarantine r e).failure = st.failure := rfl

theorem emit_failure (res : List (Row × Option String)) (st : SinkState) :
    (emitResults st res).failure = st.failure := by
  induction res generalizing st with
  | nil => rfl
  | cons p rest ih =>
    unfold emitResults
    rw [List.foldl_cons]
    cases hp : p.2 with
    | none =>
      have := ih (st.write p.1)
      unfold emitResults at this
      rw [this, write_failure]
    | some e =>
      have := ih (st.quarantine p.1 e)
      unfold emitResults at this
      rw [this, quarantine_failure]

theorem emit_stable (res : List (Row × Option String)) (st : SinkState) :
    (emitResults st res).typeMap = st.typeMap ∧
    (emitResults st res).filesWritten = st.filesWritten ∧
    (emitResults st res).parquet = st.parquet ∧
    (emitResults st res).manifest = st.manifest := by
  induction res generalizing st with
  | nil => exact ⟨rfl, rfl, rfl, rfl⟩
  | cons p rest ih =>
    unfold emitResults
    rw [List.foldl_cons]
    cases hp : p.2 with
    | none =>
      have hw := write_stable st p.1
      have := ih (st.write p.1)
      unfold emitResults at this
      exact ⟨by rw [this.1, hw.1], by rw [this.2.1, hw.2.1],
        by rw [this.2.2.1, hw.2.2.1], by rw [this.2.2.2, hw.2.2.2.1]⟩
    | some e =>
      have hq := quarantine_stable st p.1 e
      have := ih (st.quarantine p.1 e)
      unfold emitResults at this
      exact ⟨by rw [this.1, hq.1], by rw [this.2.1, hq.2.1],
        by rw [this.2.2.1, hq.2.2.1], by rw [this.2.2.2, hq.2.2.2]⟩

theorem runChunk_stable (cfg : EngineCfg) (n : String) (acc : SinkState × List (List Value))
    (chunk : List Row) :
    (runChunk cfg n acc chunk).1.typeMap = acc.1.typeMap ∧
    (runChunk cfg n acc chunk).1.filesWritten = acc.1.filesWritten ∧
    (runChunk cfg n acc chunk).1.parquet = acc.1.parquet ∧
    (runChunk cfg n acc chunk).1.manifest = acc.1.manifest := by
  unfold runChunk
  by_cases hf : acc.1.failure.isSome = true
  · rw [if_pos hf]
    exact ⟨rfl, rfl, rfl, rfl⟩
  · rw [if_neg hf]
    cases hpre : applyPre cfg chunk with
    | error e => exact ⟨rfl, rfl, rfl, rfl⟩
    | ok pre => exact emit_stable _ _

theorem chunksFold_stable (cfg : EngineCfg) (n : String) (cs : List (List Row))
    (acc : SinkState × List (List Value)) :
    (cs.foldl (runChunk cfg n) acc).1.typeMap = acc.1.typeMap ∧
    (cs.foldl (runChunk cfg n) acc).1.filesWritten = acc.1.filesWritten ∧
    (cs.foldl (runChunk cfg n) acc).1.parquet = acc.1.parquet ∧
    (cs.foldl (runChunk cfg n) acc).1.manifest = acc.1.manifest := by
  induction cs generalizing acc with
  | nil => exact ⟨rfl, rfl, rfl, rfl⟩
  | cons c rest ih =>
    rw [List.foldl_cons]
    have h1 := runChunk_stable cfg n acc c
    have h2 := ih (runChunk cfg n acc c)
    exact ⟨by rw [h2.1, h1.1], by rw [h2.2.1, h1.2.1],
      by rw [h2.2.2.1, h1.2.2.1], by rw [h2.2.2.2, h1.2.2.2]⟩

theorem runTable_stable (cfg : EngineCfg) (st : SinkState) (n : String) (rows : List Row) :
    (runTable cfg st n rows).typeMap = st.typeMap ∧
    (runTable cfg st n rows).filesWritten = st.filesWritten ∧
    (runTable cfg st n rows).parquet = st.parquet ∧
    (runTable cfg st n rows).manifest = st.manifest := by
  unfold runTable
  exact chunksFold_stable cfg n _ (st, [])

theorem runTables_stable (cfg : EngineCfg) (tables : List (String × List Row))
    (st : SinkState) :
    (runTables cfg st tables).typeMap = st.typeMap ∧
    (runTables cfg st tables).filesWritten = st.filesWritten ∧
    (runTables cfg st tables).parquet = st.parquet ∧
    (runTables cfg st tables).manifest = st.manifest := by
  induction tables generalizing st with
  | nil => exact ⟨rfl, rfl, rfl, rfl⟩
  | cons t rest ih =>
    unfold runTables
    rw [List.foldl_cons]
    have h1 := runTable_stable cfg st t.1 t.2
    have h2 := ih (runTable cfg st t.1 t.2)
    unfold runTables at h2
    exact ⟨by rw [h2.1, h1.1], by rw [h2.2.1, h1.2.1],
      by rw [h2.2.2.1, h1.2.2.1], by rw [h2.2.2.2, h1.2.2.2]⟩

theorem runTablesE_stable (cfg : EngineCfg)
    (tables : List (String × List (Except String Row))) (st : SinkState) :
    (runTablesE cfg st tables).1.typeMap = st.typeMap ∧
    (runTablesE cfg st tables).1.filesWritten = st.filesWritten ∧
    (runTablesE cfg st tables).1.parquet = st.parquet ∧
    (runTablesE cfg st tables).1.manifest = st.manifest := by
  induction tables generalizing st with
  | nil => exact ⟨rfl, rfl, rfl, rfl⟩
  | cons t rest ih =>
    unfold runTablesE
    cases hres : runTableE cfg st t.1 t.2 with
    | mk st1 err =>
      have h1 : st1.typeMap = st.typeMap ∧ st1.filesWritten = st.filesWritten ∧
          st1.parquet = st.parquet ∧ st1.manifest = st.manifest := by
        unfold runTableE at hres
        dsimp only at hres
        cases hsp : (splitFirstError t.2).2 with
        | none =>
          simp only [hsp] at hres
          injection hres with hst _
          rw [← hst]
          exact runTable_stable cfg st t.1 _
        | some e =>
          simp only [hsp] at hres
          injection hres with hst _
          rw [← hst]
          exact chunksFold_stable cfg t.1 _ (st, [])
      cases err with
      | none =>
        have h2 := ih st1
        exact ⟨by rw [h2.1, h1.1], by rw [h2.2.1, h1.2.1],
          by rw [h2.2.2.1, h1.2.2.1], by rw [h2.2.2.2, h1.2.2.2]⟩
      | some e => exact h1

/-! ### Infrastructure: the counter equation

`read = kept + rejected + skipped (+ rows still buffered awaiting deferred
validation)` is the running invariant; the buffered summand vanishes at
close, and is identically zero when no validation is configured. -/

/-- Number of rows sitting in the sink's buffers. -/
def buffersTotal (st : SinkState) : Nat := (st.buffers.map (fun p => p.2.length)).sum

/-- Rows counted in `read` but not yet in `kept`/`rejected`: the buffered
rows when their counting is deferred to flush-time validation. -/
def pendingCount (st : SinkState) : Nat :=
  if st.hasValidation then buffersTotal st else 0

/-- The running counter invariant. -/
def counterEq (st : SinkState) : Prop :=
  st.read = st.kept + st.rejected + st.skipped + pendingCount st

theorem buffersTotal_bufAppend (bufs : List (String × List Row)) (k : String) (r : Row) :
    (((bufAppend bufs k r).map (fun p => p.2.length)).sum : Nat)
      = ((bufs.map (fun p => p.2.length)).sum : Nat) + 1 := by
  induction bufs with
  | nil => simp [bufAppend]
  | cons b rest ih =>
    unfold bufAppend
    by_cases hk : b.1 = k
    · rw [if_pos hk]
      simp only [List.map_cons, List.sum_cons, List.length_append, List.length_cons,
        List.length_nil]
      omega
    · rw [if_neg hk]
      simp only [List.map_cons, List.sum_cons, ih]
      omega

theorem counterEq_write (st : SinkState) (r : Row) (h : counterEq st) :
    counterEq (st.write r) := by
  have hb := buffersTotal_bufAppend st.buffers (tableKeyOf r) (cleanRow r)
  unfold counterEq pendingCount buffersTotal at h ⊢
  unfold SinkState.write
  dsimp only
  by_cases hskip : valueTruthy ((assocGet r "__forklift_skip__").getD .vNull) = true
  · rw [if_pos hskip]
    by_cases hval : st.typeMap.isEmpty <;>
      simp [SinkState.hasValidation, hval] at h ⊢ <;> omega
  · rw [if_neg hskip]
    by_cases hval : st.typeMap.isEmpty <;>
      simp [SinkState.hasValidation, hval] at h hb ⊢ <;> omega

theorem counterEq_quarantine (st : SinkState) (r : Row) (e : String) (h : counterEq st) :
    counterEq (st.quarantine r e) := by
  unfold counterEq pendingCount buffersTotal at h ⊢
  unfold SinkState.quarantine
  dsimp only
  by_cases hval : st.typeMap.isEmpty <;>
    simp [SinkState.hasValidation, hval] at h ⊢ <;> omega

theorem counterEq_applyEvents (evs : List SinkEv) (st : SinkState) (h : counterEq st) :
    counterEq (st.applyEvents evs) := by
  induction evs generalizing st with
  | nil => exact h
  | cons ev rest ih =>
    unfold SinkState.applyEvents
    rw [List.foldl_cons]
    cases ev with
    | write r =>
      have := ih (st.write r) (counterEq_write st r h)
      unfold SinkState.applyEvents at this
      exact this
    | quar r e =>
      have := ih (st.quarantine r e) (counterEq_quarantine st r e h)
      unfold SinkState.applyEvents at this
      exact this

theorem counterEq_openSink (fields : List (String × TypeSpec)) :
    counterEq (SinkState.openSink fields) := by
  unfold counterEq pendingCount SinkState.openSink buffersTotal
  simp

/-- A successful single-table validated flush: only `kept` (by the row
count — the stage's error list is empty on success) and `parquet` move, and
any new parquet entry takes its columns from one of the flushed rows. -/
theorem flushValidatedTable_ok {tm : List (String × TypeSpec)} {st : SinkState}
    {tn : String} {rows : List Row} {s : SinkState}
    (h : flushValidatedTable tm st tn rows = .ok s) :
    s.read = st.read ∧ s.skipped = st.skipped ∧ s.qlines = st.qlines ∧
    s.rejected = st.rejected ∧ s.kept = st.kept + rows.length ∧
    s.filesWritten = st.filesWritten ∧ s.typeMap = st.typeMap ∧
    s.manifest = st.manifest ∧ s.buffers = st.buffers ∧ s.failure = st.failure ∧
    ∀ q ∈ s.parquet, q ∈ st.parquet ∨ ∃ r ∈ rows, q.2 = rowKeys r := by
  unfold flushValidatedTable at h
  by_cases hemp : rows.isEmpty = true
  · rw [if_pos hemp] at h
    injection h with h
    rw [← h]
    refine ⟨rfl, rfl, rfl, rfl, ?_, rfl, rfl, rfl, rfl, rfl, fun q hq => Or.inl hq⟩
    rw [List.isEmpty_iff.mp hemp]
    rfl
  · rw [if_neg hemp] at h
    dsimp only at h
    cases hres : (TC.ofTypes tm []).processDataframe (colsOf rows) rows with
    | error e =>
      rw [hres] at h
      cases h
    | ok res =>
      rw [hres] at h
      injection h with h
      obtain ⟨he, hlen, hkeys⟩ := processDataframe_ok hres
      rw [← h]
      refine ⟨rfl, rfl, ?_, ?_, ?_, rfl, rfl, rfl, rfl, rfl, ?_⟩
      · dsimp only
        rw [he]
        simp
      · dsimp only
        rw [he]
        simp
      · dsimp only
        rw [hlen]
      · intro q hq
        dsimp only at hq
        by_cases hke : res.1.isEmpty = true
        · rw [if_pos hke] at hq
          exact Or.inl hq
        · rw [if_neg hke] at hq
          rcases List.mem_append.mp hq with h2 | h2
          · exact Or.inl h2
          · simp only [List.mem_singleton] at h2
            subst h2
            obtain ⟨r2, hr2, hcols⟩ :=
              colsOf_mem (by simpa [List.isEmpty_iff] using hke)
            obtain ⟨r0, hr0, hk⟩ := hkeys r2 hr2
            exact Or.inr ⟨r0, hr0, by rw [hcols, hk]⟩

/-- The validated flush loop moves neither `read`, `skipped`, `qlines`,
`rejected`, the file list, the type map nor the manifest (validation can
only keep rows or raise). -/
theorem flushValTables_pres (tm : List (String × TypeSpec))
    (bs : List (String × List Row)) : ∀ st : SinkState,
    (flushValTables tm st bs).read = st.read ∧
    (flushValTables tm st bs).skipped = st.skipped ∧
    (flushValTables tm st bs).qlines = st.qlines ∧
    (flushValTables tm st bs).rejected = st.rejected ∧
    (flushValTables tm st bs).filesWritten = st.filesWritten ∧
    (flushValTables tm st bs).typeMap = st.typeMap ∧
    (flushValTables tm st bs).manifest = st.manifest := by
  induction bs with
  | nil => exact fun st => ⟨rfl, rfl, rfl, rfl, rfl, rfl, rfl⟩
  | cons b rest ih =>
    intro st
    unfold flushValTables
    cases hres : flushValidatedTable tm st b.1 b.2 with
    | error e => exact ⟨rfl, rfl, rfl, rfl, rfl, rfl, rfl⟩
    | ok s =>
      obtain ⟨h1, h2, h3, h4, _, h6, h7, h8, _, _, _⟩ := flushValidatedTable_ok hres
      obtain ⟨g1, g2, g3, g4, g5, g6, g7⟩ := ih { s with buffers := clearBuf s.buffers b.1 }
      exact ⟨by rw [g1]; exact h1, by rw [g2]; exact h2, by rw [g3]; exact h3,
        by rw [g4]; exact h4, by rw [g5]; exact h6, by rw [g6]; exact h7,
        by rw [g7]; exact h8⟩

/-- A validated flush loop that did not raise kept every buffered row. -/
theorem flushValTables_kept (tm : List (String × TypeSpec))
    (bs : List (String × List Row)) : ∀ st : SinkState,
    (flushValTables tm st bs).failure = none →
    st.failure = none ∧
    (flushValTables tm st bs).kept = st.kept + ((bs.map (fun p => p.2.length)).sum : Nat) := by
  induction bs with
  | nil =>
    intro st h
    exact ⟨h, by simp [flushValTables]⟩
  | cons b rest ih =>
    intro st h
    unfold flushValTables at h ⊢
    cases hres : flushValidatedTable tm st b.1 b.2 with
    | error e =>
      rw [hres] at h
      simp at h
    | ok s =>
      rw [hres] at h
      obtain ⟨hf, hk⟩ := ih { s with buffers := clearBuf s.buffers b.1 } h
      obtain ⟨_, _, _, _, hkept, _, _, _, _, hfail, _⟩ := flushValidatedTable_ok hres
      constructor
      · rw [← hfail]
        exact hf
      · rw [hk]
        simp only [List.map_cons, List.sum_cons]
        rw [show ({ s with buffers := clearBuf s.buffers b.1 } : SinkState).kept = s.kept
          from rfl, hkept]
        omega

/-- After a `close` whose flush did not raise, the counter equation holds
with nothing pending. -/
theorem close_counterEq (st : SinkState) (h : counterEq st)
    (hok : (SinkState.close st).failure = none) :
    (SinkState.close st).read
      = (SinkState.close st).kept + (SinkState.close st).rejected
        + (SinkState.close st).skipped := by
  unfold SinkState.close at hok ⊢
  dsimp only at hok ⊢
  unfold SinkState.flushVectorized at hok ⊢
  unfold counterEq pendingCount buffersTotal at h
  by_cases hval : st.typeMap.isEmpty
  · rw [if_neg (by simp [SinkState.hasValidation, hval])]
    simp [SinkState.hasValidation, hval] at h
    dsimp only
    omega
  · rw [if_pos (by simp [SinkState.hasValidation, hval])] at hok ⊢
    simp [SinkState.hasValidation, hval] at h
    obtain ⟨p1, p2, _, p4, _, _, _⟩ := flushValTables_pres st.typeMap st.buffers st
    obtain ⟨_, hk⟩ := flushValTables_kept st.typeMap st.buffers st hok
    omega

/-- `close` records the final counters in the manifest. -/
theorem close_manifest (st : SinkState) :
    (SinkState.close st).manifest
      = some ((SinkState.close st).read, (SinkState.close st).kept,
          (SinkState.close st).rejected) := rfl

/-! ### Infrastructure: chunked processing composes

Chunking a table's rows only batches the work: the `seen_keys` set and the
sink state thread through, so the chunked run equals the single-pass run. -/

theorem chunksOfAux_flatten (sz : Nat) (l acc : List Row) :
    (chunksOfAux sz acc l).flatten = acc.reverse ++ l := by
  induction l generalizing acc with
  | nil =>
    unfold chunksOfAux
    by_cases hacc : acc.isEmpty = true
    · rw [if_pos hacc, List.isEmpty_iff.mp hacc]
      rfl
    · rw [if_neg hacc]
      simp
  | cons r rs ih =>
    unfold chunksOfAux
    by_cases hsz : sz ≤ (r :: acc).length
    · rw [if_pos hsz, List.flatten_cons, ih []]
      simp
    · rw [if_neg hsz, ih (r :: acc)]
      simp

theorem chunksOf_join (n : Nat) (l : List Row) : (chunksOf n l).flatten = l := by
  unfold chunksOf
  rw [chunksOfAux_flatten]
  rfl

theorem processAccepted_cons (cfg : EngineCfg) (n : String) (r : Row) (rs : List Row)
    (seen : List (List Value)) :
    processAccepted cfg n (r :: rs) seen
      = (if ¬ requiredOk cfg (withTable n r) then
          ((withTable n r, some "missing required field") :: (processAccepted cfg n rs seen).1,
            (processAccepted cfg n rs seen).2)
        else if cfg.dedupeKeys.isEmpty then
          ((withTable n r, none) :: (processAccepted cfg n rs seen).1,
            (processAccepted cfg n rs seen).2)
        else if keyOf cfg.dedupeKeys (withTable n r) ∈ seen then
          ((rowInsert (withTable n r) "__forklift_skip__" (.vBool true), none)
              :: (processAccepted cfg n rs seen).1,
            (processAccepted cfg n rs seen).2)
        else
          ((withTable n r, none)
              :: (processAccepted cfg n rs
                    (keyOf cfg.dedupeKeys (withTable n r) :: seen)).1,
            (processAccepted cfg n rs
                (keyOf cfg.dedupeKeys (withTable n r) :: seen)).2)) := rfl

theorem processAccepted_append (cfg : EngineCfg) (n : String) (a b : List Row)
    (seen : List (List Value)) :
    processAccepted cfg n (a ++ b) seen
      = ((processAccepted cfg n a seen).1
            ++ (processAccepted cfg n b (processAccepted cfg n a seen).2).1,
         (processAccepted cfg n b (processAccepted cfg n a seen).2).2) := by
  induction a generalizing seen with
  | nil => simp [processAccepted]
  | cons r rs ih =>
    rw [List.cons_append, processAccepted_cons, processAccepted_cons]
    by_cases h1 : ¬ requiredOk cfg (withTable n r) = true
    · rw [if_pos h1, if_pos h1, ih seen]
      simp
    · rw [if_neg h1, if_neg h1]
      by_cases h2 : cfg.dedupeKeys.isEmpty = true
      · rw [if_pos h2, if_pos h2, ih seen]
        simp
      · rw [if_neg h2, if_neg h2]
        by_cases h3 : keyOf cfg.dedupeKeys (withTable n r) ∈ seen
        · rw [if_pos h3, if_pos h3, ih seen]
          simp
        · rw [if_neg h3, if_neg h3,
            ih (keyOf cfg.dedupeKeys (withTable n r) :: seen)]
          simp

theorem emitResults_append (st : SinkState) (a b : List (Row × Option String)) :
    emitResults st (a ++ b) = emitResults (emitResults st a) b := by
  unfold emitResults
  rw [List.foldl_append]

/-- With no preprocessor configured (so nothing can raise), running a table
in chunks equals emitting the single-pass row results: the seen-keys set
persists across chunk boundaries within the table. -/
theorem runTable_noPre (cfg : EngineCfg) (htc : cfg.tc = none) (st : SinkState)
    (hf : st.failure = none) (n : String) (rows : List Row) :
    runTable cfg st n rows = emitResults st (processAccepted cfg n rows []).1 := by
  unfold runTable
  have hgen : ∀ (cs : List (List Row)) (st0 : SinkState), st0.failure = none →
      ∀ (seen : List (List Value)),
      (cs.foldl (runChunk cfg n) (st0, seen)).1
        = emitResults st0 (processAccepted cfg n cs.flatten seen).1 ∧
      (cs.foldl (runChunk cfg n) (st0, seen)).2
        = (processAccepted cfg n cs.flatten seen).2 := by
    intro cs
    induction cs with
    | nil =>
      intro st0 _ seen
      simp [processAccepted, emitResults]
    | cons c rest ih =>
      intro st0 hf0 seen
      rw [List.foldl_cons, List.flatten_cons]
      have hchunk : runChunk cfg n (st0, seen) c
          = (emitResults st0 (processAccepted cfg n c seen).1,
             (processAccepted cfg n c seen).2) := by
        unfold runChunk applyPre
        rw [htc]
        dsimp only
        rw [if_neg (by simp [hf0])]
        simp
      rw [hchunk]
      obtain ⟨ih1, ih2⟩ := ih (emitResults st0 (processAccepted cfg n c seen).1)
        (by rw [emit_failure]; exact hf0)
        (processAccepted cfg n c seen).2
      rw [processAccepted_append]
      constructor
      · rw [ih1, emitResults_append]
      · exact ih2
  rw [(hgen (chunksOf cfg.chunkSize rows) st hf []).1, chunksOf_join]

/-! ### Infrastructure: the dedup discipline -/

/-- First occurrence of each key wins: the subsequence of rows whose key
has not been seen before. -/
def firstOccAux (f : Row → List Value) (seen : List (List Value)) : List Row → List Row
  | [] => []
  | r :: rs =>
    if f r ∈ seen then firstOccAux f seen rs
    else r :: firstOccAux f (f r :: seen) rs

theorem firstOccAux_length_le (f : Row → List Value) (seen : List (List Value))
    (l : List Row) : (firstOccAux f seen l).length ≤ l.length := by
  induction l generalizing seen with
  | nil => simp [firstOccAux]
  | cons r rs ih =>
    unfold firstOccAux
    by_cases h : f r ∈ seen
    · rw [if_pos h]
      calc (firstOccAux f seen rs).length ≤ rs.length := ih seen
      _ ≤ (r :: rs).length := by simp
    · rw [if_neg h]
      simp only [List.length_cons, Nat.add_le_add_iff_right]
      exact ih (f r :: seen)

theorem firstOccAux_sublist (f : Row → List Value) (seen : List (List Value))
    (l : List Row) : (firstOccAux f seen l).Sublist l := by
  induction l generalizing seen with
  | nil => simp [firstOccAux]
  | cons r rs ih =>
    unfold firstOccAux
    by_cases h : f r ∈ seen
    · rw [if_pos h]
      exact (ih seen).cons r
    · rw [if_neg h]
      exact (ih (f r :: seen)).cons₂ r

theorem firstOccAux_keys (f : Row → List Value) (seen : List (List Value))
    (l : List Row) :
    ((firstOccAux f seen l).map f).Nodup ∧
      ∀ x ∈ (firstOccAux f seen l).map f, x ∉ seen := by
  induction l generalizing seen with
  | nil => simp [firstOccAux]
  | cons r rs ih =>
    unfold firstOccAux
    by_cases h : f r ∈ seen
    · rw [if_pos h]
      exact ih seen
    · rw [if_neg h]
      obtain ⟨ihn, ihs⟩ := ih (f r :: seen)
      simp only [List.map_cons, List.nodup_cons]
      refine ⟨⟨?_, ihn⟩, ?_⟩
      · intro hmem
        exact (ihs _ hmem) (List.mem_cons_self _ _)
      · intro x hx
        rcases List.mem_cons.mp hx with hx | hx
        · rw [hx]; exact h
        · intro hxs
          exact (ihs x hx) (List.mem_cons_of_mem _ hxs)

theorem assocGet_rowInsert_self (r : Row) (k : String) (v : Value) :
    assocGet (rowInsert r k v) k = some v := by
  induction r with
  | nil => simp [rowInsert, assocGet]
  | cons p rest ih =>
    unfold rowInsert
    by_cases hk : p.1 = k
    · rw [if_pos hk]
      unfold assocGet
      rw [if_pos hk]
    · rw [if_neg hk]
      unfold assocGet
      rw [if_neg hk]
      exact ih

theorem assocGet_rowInsert_ne (r : Row) (k k2 : String) (v : Value) (hk : k ≠ k2) :
    assocGet (rowInsert r k v) k2 = assocGet r k2 := by
  induction r with
  | nil => simp [rowInsert, assocGet, hk]
  | cons p rest ih =>
    unfold rowInsert
    by_cases hp : p.1 = k
    · rw [if_pos hp]
      unfold assocGet
      rw [if_neg (by rw [hp]; exact hk), if_neg (by rw [hp]; exact hk)]
    · rw [if_neg hp]
      unfold assocGet
      by_cases hp2 : p.1 = k2
      · rw [if_pos hp2, if_pos hp2]
      · rw [if_neg hp2, if_neg hp2]
        exact ih

theorem tableKeyOf_withTable (n : String) (r : Row) :
    tableKeyOf (withTable n r) = if n.data.isEmpty then "data" else n := by
  unfold tableKeyOf withTable
  rw [assocGet_rowInsert_self]

/-- Field-wise effect of `write` on a skip-flagged row. -/
theorem write_skip_effect (st : SinkState) (r : Row)
    (h : valueTruthy ((assocGet r "__forklift_skip__").getD .vNull) = true) :
    st.write r
      = { st with
          writeLog := st.writeLog ++ [r]
          read := st.read + 1
          skipped := st.skipped + 1 } := by
  unfold SinkState.write
  dsimp only
  rw [if_pos h]

/-- Field-wise effect of `write` on an unflagged row when the sink defers
no validation. -/
theorem write_keep_effect (st : SinkState) (r : Row)
    (h : valueTruthy ((assocGet r "__forklift_skip__").getD .vNull) = false)
    (hval : st.typeMap = []) :
    st.write r
      = { st with
          writeLog := st.writeLog ++ [r]
          read := st.read + 1
          buffers := bufAppend st.buffers (tableKeyOf r) (cleanRow r)
          kept := st.kept + 1 } := by
  unfold SinkState.write
  dsimp only
  rw [if_neg (by simp [h])]
  rw [if_neg (by simp [SinkState.hasValidation, hval])]

/-- The dedup discipline through emission, for a run with no preprocessor
and an immediate-counting sink: `read` counts every row, nothing is
rejected, exactly the first occurrences are kept and buffered, and later
occurrences only bump `read` and `skipped`. -/
theorem dedup_emit (cfg : EngineCfg) (n : String)
    (hks : cfg.dedupeKeys.isEmpty = false) :
    ∀ (rows : List Row) (seen : List (List Value)) (st : SinkState),
      st.typeMap = [] →
      (∀ r ∈ rows, requiredOk cfg (withTable n r) = true) →
      (∀ r ∈ rows, assocGet r "__forklift_skip__" = none) →
      (emitResults st (processAccepted cfg n rows seen).1).read = st.read + rows.length ∧
      (emitResults st (processAccepted cfg n rows seen).1).rejected = st.rejected ∧
      (emitResults st (processAccepted cfg n rows seen).1).qlines = st.qlines ∧
      (emitResults st (processAccepted cfg n rows seen).1).kept
        = st.kept + (firstOccAux (fun r => keyOf cfg.dedupeKeys (withTable n r)) seen rows).length ∧
      (emitResults st (processAccepted cfg n rows seen).1).skipped
        = st.skipped + (rows.length
            - (firstOccAux (fun r => keyOf cfg.dedupeKeys (withTable n r)) seen rows).length) ∧
      (emitResults st (processAccepted cfg n rows seen).1).buffers
        = (firstOccAux (fun r => keyOf cfg.dedupeKeys (withTable n r)) seen rows).foldl
            (fun b r => bufAppend b (tableKeyOf (withTable n r)) (cleanRow (withTable n r)))
            st.buffers ∧
      (emitResults st (processAccepted cfg n rows seen).1).typeMap = st.typeMap ∧
      (emitResults st (processAccepted cfg n rows seen).1).writeLog
        = st.writeLog ++ (processAccepted cfg n rows seen).1.map (·.1) := by
  intro rows
  induction rows with
  | nil =>
    intro seen st hval _ _
    simp [processAccepted, emitResults, firstOccAux]
  | cons r rs ih =>
    intro seen st hval hreq hflag
    have hreq1 : requiredOk cfg (withTable n r) = true := hreq r (List.mem_cons_self r rs)
    have hflag1 : assocGet (withTable n r) "__forklift_skip__" = none := by
      unfold withTable
      rw [assocGet_rowInsert_ne _ _ _ _ (by decide)]
      exact hflag r (List.mem_cons_self r rs)
    rw [processAccepted_cons, if_neg (by rw [hreq1]; exact fun hc => hc rfl), if_neg (by rw [hks]; exact Bool.noConfusion)]
    unfold firstOccAux
    by_cases hseen : keyOf cfg.dedupeKeys (withTable n r) ∈ seen
    · rw [if_pos hseen, if_pos hseen]
      simp only [emitResults, List.foldl_cons]
      have hw := write_skip_effect st (rowInsert (withTable n r) "__forklift_skip__" (.vBool true))
        (by rw [assocGet_rowInsert_self]; rfl)
      rw [show (List.foldl _ (SinkState.write st _) _ : SinkState)
          = emitResults (st.write (rowInsert (withTable n r) "__forklift_skip__" (.vBool true)))
              (processAccepted cfg n rs seen).1 from rfl]
      rw [hw]
      have := ih seen
        { st with
          writeLog := st.writeLog ++ [rowInsert (withTable n r) "__forklift_skip__" (.vBool true)]
          read := st.read + 1
          skipped := st.skipped + 1 }
        hval (fun x hx => hreq x (List.mem_cons_of_mem r hx))
        (fun x hx => hflag x (List.mem_cons_of_mem r hx))
      obtain ⟨h1, h2, h3, h4, h5, h6, h7, h8⟩ := this
      have hlen := firstOccAux_length_le
        (fun r => keyOf cfg.dedupeKeys (withTable n r)) seen rs
      refine ⟨by rw [h1]; simp; omega, by rw [h2], by rw [h3], by rw [h4],
        by rw [h5]; simp; omega, by rw [h6], by rw [h7], ?_⟩
      rw [h8]
      simp
    · rw [if_neg hseen, if_neg hseen]
      simp only [emitResults, List.foldl_cons]
      have hw := write_keep_effect st (withTable n r) (by rw [hflag1]; rfl) hval
      rw [show (List.foldl _ (SinkState.write st _) _ : SinkState)
          = emitResults (st.write (withTable n r))
              (processAccepted cfg n rs (keyOf cfg.dedupeKeys (withTable n r) :: seen)).1 from rfl]
      rw [hw]
      have := ih (keyOf cfg.dedupeKeys (withTable n r) :: seen)
        { st with
          writeLog := st.writeLog ++ [withTable n r]
          read := st.read + 1
          buffers := bufAppend st.buffers (tableKeyOf (withTable n r)) (cleanRow (withTable n r))
          kept := st.kept + 1 }
        hval (fun x hx => hreq x (List.mem_cons_of_mem r hx))
        (fun x hx => hflag x (List.mem_cons_of_mem r hx))
      obtain ⟨h1, h2, h3, h4, h5, h6, h7, h8⟩ := this
      have hlen := firstOccAux_length_le
        (fun r => keyOf cfg.dedupeKeys (withTable n r))
        (keyOf cfg.dedupeKeys (withTable n r) :: seen) rs
      refine ⟨by rw [h1]; simp; try omega, by rw [h2], by rw [h3],
        by rw [h4]; simp; try omega, by rw [h5]; simp; try omega,
        by rw [h6], by rw [h7], by rw [h8]; simp⟩

/-- Buffering first-occurrence rows under one table key, starting from an
empty buffer map, yields the single per-table buffer. -/
theorem bufAppend_fold_const (k : String) (g : Row → Row) :
    ∀ (l : List Row) (acc : List Row),
      (l.foldl (fun b r => bufAppend b k (g r)) [(k, acc)]) = [(k, acc ++ l.map g)] := by
  intro l
  induction l with
  | nil => intro acc; simp
  | cons r rs ih =>
    intro acc
    rw [List.foldl_cons]
    have hstep : bufAppend [(k, acc)] k (g r) = [(k, acc ++ [g r])] := by
      unfold bufAppend
      rw [if_pos rfl]
    rw [hstep, ih (acc ++ [g r])]
    simp

theorem bufAppend_fold_nil (k : String) (g : Row → Row) (l : List Row) :
    (l.foldl (fun b r => bufAppend b k (g r)) ([] : List (String × List Row)))
      = if l.isEmpty then [] else [(k, l.map g)] := by
  cases l with
  | nil => rfl
  | cons r rs =>
    rw [List.foldl_cons]
    have hstep : bufAppend ([] : List (String × List Row)) k (g r) = [(k, [g r])] := rfl
    rw [hstep, bufAppend_fold_const k g rs [g r]]
    simp

/-! ### Infrastructure: what reaches the write log and the buffers -/

/-- The rows the driver routes to `write` (accepted results). -/
def acceptedRows (res : List (Row × Option String)) : List Row :=
  res.filterMap (fun p => match p.2 with | none => some p.1 | some _ => none)

theorem emit_writeLog (res : List (Row × Option String)) (st : SinkState) :
    (emitResults st res).writeLog = st.writeLog ++ acceptedRows res := by
  induction res generalizing st with
  | nil => simp [emitResults, acceptedRows]
  | cons q rest ih =>
    obtain ⟨qr, qe⟩ := q
    unfold emitResults acceptedRows
    rw [List.foldl_cons]
    cases qe with
    | none =>
      dsimp only
      have hw : (st.write qr).writeLog = st.writeLog ++ [qr] := by
        unfold SinkState.write
        dsimp only
        split
        · rfl
        · split <;> rfl
      have := ih (st.write qr)
      unfold emitResults acceptedRows at this
      rw [this, hw]
      simp
    | some e =>
      dsimp only
      have hw : (st.quarantine qr e).writeLog = st.writeLog := rfl
      have := ih (st.quarantine qr e)
      unfold emitResults acceptedRows at this
      rw [this, hw, List.filterMap_cons]

/-- With no preprocessor, the write log decomposes per table, each table
processed from a fresh seen-keys set and ignoring chunk boundaries. -/
theorem runTables_writeLog (cfg : EngineCfg) (htc : cfg.tc = none)
    (tables : List (String × List Row)) :
    ∀ st : SinkState, st.failure = none →
    (runTables cfg st tables).writeLog
      = st.writeLog
        ++ (tables.map (fun t => acceptedRows (processAccepted cfg t.1 t.2 []).1)).flatten := by
  induction tables with
  | nil =>
    intro st _
    simp [runTables]
  | cons t rest ih =>
    intro st hf
    unfold runTables
    rw [List.foldl_cons]
    have h1 : (runTable cfg st t.1 t.2).writeLog
        = st.writeLog ++ acceptedRows (processAccepted cfg t.1 t.2 []).1 := by
      rw [runTable_noPre cfg htc st hf, emit_writeLog]
    have hf1 : (runTable cfg st t.1 t.2).failure = none := by
      rw [runTable_noPre cfg htc st hf, emit_failure]
      exact hf
    have h2 := ih (runTable cfg st t.1 t.2) hf1
    unfold runTables at h2
    rw [h2, h1]
    simp

/-- Every row ever buffered by the engine run is reserved-key-free and
carries the `_table` key. -/
def BufInv (st : SinkState) : Prop :=
  ∀ b ∈ st.buffers, ∀ r ∈ b.2,
    (∀ p ∈ r, reservedKey p.1 = false) ∧ (∃ p ∈ r, p.1 = "_table")

theorem mem_bufAppend_rows {bufs : List (String × List Row)} {k : String} {r0 : Row}
    {b : String × List Row} {r : Row}
    (hb : b ∈ bufAppend bufs k r0) (hr : r ∈ b.2) :
    (∃ b2 ∈ bufs, r ∈ b2.2) ∨ r = r0 := by
  induction bufs with
  | nil =>
    simp only [bufAppend, List.mem_singleton] at hb
    subst hb
    simp only [List.mem_singleton] at hr
    exact Or.inr hr
  | cons b1 rest ih =>
    unfold bufAppend at hb
    by_cases hk : b1.1 = k
    · rw [if_pos hk] at hb
      rcases List.mem_cons.mp hb with h | h
      · subst h
        simp only [List.mem_append, List.mem_singleton] at hr
        rcases hr with h2 | h2
        · exact Or.inl ⟨b1, List.mem_cons_self _ _, h2⟩
        · exact Or.inr h2
      · exact Or.inl ⟨b, List.mem_cons_of_mem _ h, hr⟩
    · rw [if_neg hk] at hb
      rcases List.mem_cons.mp hb with h | h
      · subst h
        exact Or.inl ⟨b1, List.mem_cons_self _ _, hr⟩
      · rcases ih h with h2 | h2
        · obtain ⟨b2, hb2, hr2⟩ := h2
          exact Or.inl ⟨b2, List.mem_cons_of_mem _ hb2, hr2⟩
        · exact Or.inr h2

theorem BufInv_write {st : SinkState} {r : Row} (h : BufInv st)
    (hr : ∃ p ∈ r, p.1 = "_table") : BufInv (st.write r) := by
  have hbuf : (st.write r).buffers = st.buffers ∨
      (st.write r).buffers = bufAppend st.buffers (tableKeyOf r) (cleanRow r) := by
    unfold SinkState.write
    dsimp only
    split
    · exact Or.inl rfl
    · split
      · exact Or.inr rfl
      · exact Or.inr rfl
  intro b hb rr hrr
  rcases hbuf with hbuf | hbuf
  · rw [hbuf] at hb
    exact h b hb rr hrr
  · rw [hbuf] at hb
    rcases mem_bufAppend_rows hb hrr with h2 | h2
    · obtain ⟨b2, hb2, hr2⟩ := h2
      exact h b2 hb2 rr hr2
    · subst h2
      constructor
      · intro p hp
        have := List.mem_filter.mp hp
        simpa using this.2
      · obtain ⟨p, hpmem, hpk⟩ := hr
        refine ⟨p, ?_, hpk⟩
        apply List.mem_filter.mpr
        refine ⟨hpmem, ?_⟩
        rw [hpk]
        decide

theorem BufInv_emit {st : SinkState} (res : List (Row × Option String)) (h : BufInv st)
    (hres : ∀ q ∈ res, ∃ p ∈ q.1, p.1 = "_table") : BufInv (emitResults st res) := by
  induction res generalizing st with
  | nil => exact h
  | cons q rest ih =>
    unfold emitResults
    rw [List.foldl_cons]
    cases hq : q.2 with
    | none =>
      have hstep : BufInv (st.write q.1) :=
        BufInv_write h (hres q (List.mem_cons_self q rest))
      have := ih hstep (fun x hx => hres x (List.mem_cons_of_mem q hx))
      unfold emitResults at this
      exact this
    | some e =>
      have hstep : BufInv (st.quarantine q.1 e) := by
        intro b hb rr hrr
        exact h b hb rr hrr
      have := ih hstep (fun x hx => hres x (List.mem_cons_of_mem q hx))
      unfold emitResults at this
      exact this

theorem mem_keys_rowInsert_of_mem {r : Row} {k2 : String} (k : String) (v : Value)
    (h : ∃ p ∈ r, p.1 = k2) : ∃ p ∈ rowInsert r k v, p.1 = k2 := by
  induction r with
  | nil =>
    obtain ⟨p, hp, _⟩ := h
    cases hp
  | cons q rest ih =>
    obtain ⟨p, hp, hpk⟩ := h
    unfold rowInsert
    by_cases hk : q.1 = k
    · rw [if_pos hk]
      rcases List.mem_cons.mp hp with h2 | h2
      · exact ⟨(q.1, v), List.mem_cons_self _ _, by rw [show q.1 = p.1 from by rw [h2]]; exact hpk⟩
      · exact ⟨p, List.mem_cons_of_mem _ h2, hpk⟩
    · rw [if_neg hk]
      rcases List.mem_cons.mp hp with h2 | h2
      · subst h2
        exact ⟨p, List.mem_cons_self _ _, hpk⟩
      · obtain ⟨p2, hp2, hpk2⟩ := ih ⟨p, h2, hpk⟩
        exact ⟨p2, List.mem_cons_of_mem _ hp2, hpk2⟩

theorem withTable_has_table (n : String) (r : Row) :
    ∃ p ∈ withTable n r, p.1 = "_table" := by
  induction r with
  | nil => exact ⟨("_table", .vStr n), List.mem_cons_self _ _, rfl⟩
  | cons q rest ih =>
    unfold withTable rowInsert
    by_cases hk : q.1 = "_table"
    · rw [if_pos hk]
      exact ⟨(q.1, .vStr n), List.mem_cons_self _ _, hk⟩
    · rw [if_neg hk]
      obtain ⟨p, hp, hpk⟩ := ih
      exact ⟨p, List.mem_cons_of_mem _ hp, hpk⟩

theorem processAccepted_has_table (cfg : EngineCfg) (n : String) :
    ∀ (rows : List Row) (seen : List (List Value)),
      ∀ q ∈ (processAccepted cfg n rows seen).1, ∃ p ∈ q.1, p.1 = "_table" := by
  intro rows
  induction rows with
  | nil =>
    intro seen q hq
    simp [processAccepted] at hq
  | cons r rs ih =>
    intro seen q hq
    rw [processAccepted_cons] at hq
    by_cases h1 : ¬ requiredOk cfg (withTable n r) = true
    · rw [if_pos h1] at hq
      rcases List.mem_cons.mp hq with h | h
      · subst h
        exact withTable_has_table n r
      · exact ih seen q h
    · rw [if_neg h1] at hq
      by_cases h2 : cfg.dedupeKeys.isEmpty = true
      · rw [if_pos h2] at hq
        rcases List.mem_cons.mp hq with h | h
        · subst h
          exact withTable_has_table n r
        · exact ih seen q h
      · rw [if_neg h2] at hq
        by_cases h3 : keyOf cfg.dedupeKeys (withTable n r) ∈ seen
        · rw [if_pos h3] at hq
          rcases List.mem_cons.mp hq with h | h
          · subst h
            exact mem_keys_rowInsert_of_mem _ _ (withTable_has_table n r)
          · exact ih seen q h
        · rw [if_neg h3] at hq
          rcases List.mem_cons.mp hq with h | h
          · subst h
            exact withTable_has_table n r
          · exact ih _ q h

theorem BufInv_runTables (cfg : EngineCfg) (tables : List (String × List Row))
    (st : SinkState) (h : BufInv st) : BufInv (runTables cfg st tables) := by
  induction tables generalizing st with
  | nil => exact h
  | cons t rest ih =>
    unfold runTables
    rw [List.foldl_cons]
    have htab : BufInv (runTable cfg st t.1 t.2) := by
      unfold runTable
      have hgen : ∀ (cs : List (List Row)) (acc : SinkState × List (List Value)),
          BufInv acc.1 → BufInv (cs.foldl (runChunk cfg t.1) acc).1 := by
        intro cs
        induction cs with
        | nil => intro acc hacc; exact hacc
        | cons c crest cih =>
          intro acc hacc
          rw [List.foldl_cons]
          apply cih
          unfold runChunk
          by_cases hfail : acc.1.failure.isSome = true
          · rw [if_pos hfail]
            exact hacc
          · rw [if_neg hfail]
            cases hpre : applyPre cfg c with
            | error e =>
              intro b hb rr hrr
              exact hacc b hb rr hrr
            | ok pre =>
              dsimp only
              apply BufInv_emit _ hacc
              intro q hq
              rcases List.mem_append.mp hq with h2 | h2
              · obtain ⟨pe, _, hpe⟩ := List.mem_map.mp h2
                rw [← hpe]
                exact withTable_has_table t.1 pe.1
              · exact processAccepted_has_table cfg t.1 _ _ q h2
      exact hgen _ (st, []) h
    have := ih (runTable cfg st t.1 t.2) htab
    unfold runTables at this
    exact this

/-! ### Infrastructure: where emitted parquet columns come from -/

theorem flushValTables_parquet (tm : List (String × TypeSpec))
    (bs : List (String × List Row)) : ∀ st : SinkState,
    ∀ q ∈ (flushValTables tm st bs).parquet,
      q ∈ st.parquet ∨ ∃ r, (∃ b ∈ bs, r ∈ b.2) ∧ q.2 = rowKeys r := by
  induction bs with
  | nil => exact fun st q hq => Or.inl hq
  | cons b rest ih =>
    intro st q hq
    unfold flushValTables at hq
    cases hres : flushValidatedTable tm st b.1 b.2 with
    | error e =>
      rw [hres] at hq
      exact Or.inl hq
    | ok s =>
      rw [hres] at hq
      have hpq := (flushValidatedTable_ok hres).2.2.2.2.2.2.2.2.2.2
      rcases ih { s with buffers := clearBuf s.buffers b.1 } q hq with h | h
      · rcases hpq q h with h2 | h2
        · exact Or.inl h2
        · obtain ⟨r, hr, hk⟩ := h2
          exact Or.inr ⟨r, ⟨b, List.mem_cons_self _ _, hr⟩, hk⟩
      · obtain ⟨r, ⟨b2, hb2, hr⟩, hk⟩ := h
        exact Or.inr ⟨r, ⟨b2, List.mem_cons_of_mem _ hb2, hr⟩, hk⟩

/-- Every parquet file emitted at close takes its column list from the keys
of some buffered row. -/
theorem close_parquet_origin (st : SinkState) (hpq : st.parquet = []) :
    ∀ q ∈ (SinkState.close st).parquet,
      ∃ r, (∃ b ∈ st.buffers, r ∈ b.2) ∧ q.2 = rowKeys r := by
  intro q hq
  unfold SinkState.close at hq
  dsimp only at hq
  unfold SinkState.flushVectorized at hq
  by_cases hval : st.hasValidation = true
  · rw [if_pos hval] at hq
    rcases flushValTables_parquet st.typeMap st.buffers st q hq with h | h
    · rw [hpq] at h
      cases h
    · exact h
  · rw [if_neg hval] at hq
    dsimp only at hq
    rw [hpq] at hq
    simp only [List.nil_append] at hq
    obtain ⟨b, hb, hf⟩ := List.mem_filterMap.mp hq
    by_cases hemp : b.2.isEmpty = true
    · rw [if_pos hemp] at hf
      cases hf
    · rw [if_neg hemp] at hf
      injection hf with hf
      subst hf
      obtain ⟨r, hr, hcols⟩ := colsOf_mem (by simpa [List.isEmpty_iff] using hemp)
      exact ⟨r, ⟨b, hb, hr⟩, hcols⟩

/-! ### Infrastructure: files on disk -/

theorem flushVectorized_files (st : SinkState) :
    (SinkState.flushVectorized st).filesWritten = st.filesWritten := by
  unfold SinkState.flushVectorized
  by_cases hval : st.hasValidation = true
  · rw [if_pos hval]
    exact (flushValTables_pres st.typeMap st.buffers st).2.2.2.2.1
  · rw [if_neg hval]

theorem close_files (st : SinkState) :
    (SinkState.close st).filesWritten = st.filesWritten ++ ["_manifest.json"] := by
  unfold SinkState.close
  dsimp only
  rw [flushVectorized_files]

theorem applyEvents_typeMap (evs : List SinkEv) (st : SinkState) :
    (st.applyEvents evs).typeMap = st.typeMap := by
  induction evs generalizing st with
  | nil => rfl
  | cons ev rest ih =>
    unfold SinkState.applyEvents
    rw [List.foldl_cons]
    cases ev with
    | write r =>
      have := ih (st.write r)
      unfold SinkState.applyEvents at this
      rw [this, (write_stable st r).1]
    | quar r e =>
      have := ih (st.quarantine r e)
      unfold SinkState.applyEvents at this
      rw [this]
      rfl

/-- When no validation is configured, `close` neither quarantines,
recounts, nor raises: it only writes artifacts. -/
theorem close_noval (st : SinkState) (hval : st.typeMap = []) :
    (SinkState.close st).qlines = st.qlines ∧
    (SinkState.close st).read = st.read ∧
    (SinkState.close st).kept = st.kept ∧
    (SinkState.close st).rejected = st.rejected ∧
    (SinkState.close st).failure = st.failure := by
  unfold SinkState.close
  dsimp only
  unfold SinkState.flushVectorized
  rw [if_neg (by simp [SinkState.hasValidation, hval])]
  exact ⟨rfl, rfl, rfl, rfl, rfl⟩

/-- `close` never adds a quarantine line and never counts a rejection:
flush-time validation either keeps every row of a table or raises. -/
theorem close_no_quarantine (st : SinkState) :
    (SinkState.close st).qlines = st.qlines ∧
    (SinkState.close st).rejected = st.rejected := by
  unfold SinkState.close
  dsimp only
  unfold SinkState.flushVectorized
  by_cases hval : st.hasValidation = true
  · rw [if_pos hval]
    have h := flushValTables_pres st.typeMap st.buffers st
    exact ⟨h.2.2.1, h.2.2.2.1⟩
  · rw [if_neg hval]
    exact ⟨rfl, rfl⟩

/-! ## The claims -/

/-- `TypeCoercion` with two integer columns (driving C1). -/
def exTcC1 : TC := TC.ofTypes [("a", .simple "integer"), ("b", .simple "integer")] []

/-- Engine configuration whose chain is that coercion stage. -/
def exCfgC1 : EngineCfg := ⟨[], false, [], some exTcC1, 50000⟩

/-- A one-row table whose `a` cell cannot coerce but whose `b` cell can. -/
def exTablesC1 : List (String × List Row) :=
  [("t", [[("a", Value.vStr "xx"), ("b", Value.vStr "7")]])]

/-- C1 (code bug): on a batch with a rejected row the stage never hands the
sink any rejection entry at all — the error-building branch drops the
`__nb__*` helper columns from `bad` (`type_coercion.py:515-518`) and then
selects flag expressions that still reference them (line 528), so polars
raises `ColumnNotFoundError`, the run aborts, and the quarantine log stays
empty — where the spec (§4.4, §3) and the repository's own unit test
(`test_validation_failure_triggers_quarantine`) require a quarantine entry
carrying the raw pre-stage row `a="xx", b="7"`.  No row is read and
nothing is rejected; the manifest records zero everywhere. -/
theorem forklift_c1_crash_no_quarantine :
    (engineRun exCfgC1 [] exTablesC1).qlines = [] ∧
    (engineRun exCfgC1 [] exTablesC1).failure = some "ColumnNotFoundError: __nb__a" ∧
    (engineRun exCfgC1 [] exTablesC1).read = 0 ∧
    (engineRun exCfgC1 [] exTablesC1).rejected = 0 ∧
    (engineRun exCfgC1 [] exTablesC1).manifest = some (0, 0, 0) := by
  exact ⟨by decide, by decide, by decide, by decide, by decide⟩

/-- `TypeCoercion` with a single integer column (driving C5). -/
def exTcInt : TC := TC.ofTypes [("x", .simple "integer")] []

/-- C5 (counterexample): a raw integer cell `"1.5"` is *not* rejected: the
`cast(Float64) → cast(Int64)` chain truncates it to `1` and the stage
returns the row accepted with an empty rejection list, contradicting the
claimed quarantining. -/
theorem forklift_c5_counterexample :
    exTcInt.processDataframe ["x"] [[("x", Value.vStr "1.5")]]
      = .ok ([[("x", Value.vInt 1)]], []) := by
  decide

/-- C5 (amended): for a field declared integer, `"1.0"` is accepted and
coerced to `1`, and `"1.5"` is *also* accepted — truncated to `1` — rather
than rejected. -/
theorem forklift_c5_amended :
    exTcInt.processDataframe ["x"] [[("x", Value.vStr "1.0")], [("x", Value.vStr "1.5")]]
      = .ok ([[("x", Value.vInt 1)], [("x", Value.vInt 1)]], []) := by
  decide

/-- `TypeCoercion` with a single date column (driving C4). -/
def exTcDate : TC := TC.ofTypes [("d", .simple "date")] []

/-- C4 (counterexample): coercion is *not* idempotent on typed cells.  (a)
A raw `"2024-01-05"` coerces to the typed date; re-applying the stage to
that already-typed batch flags the row invalid (the date branch's `is_str`
gate maps every non-string cell to null while the cell is non-blank), so
the error path runs and the stage *raises* rather than returning the batch
bit-identically with zero rejections.  (b) A typed integer cell above
`2 ^ 53` is returned, but corrupted: the `Float64` round-trip rounds
`2 ^ 62 + 1` to `2 ^ 62`. -/
theorem forklift_c4_counterexample :
    exTcDate.processDataframe ["d"] [[("d", Value.vStr "2024-01-05")]]
        = .ok ([[("d", Value.vDate 2024 1 5)]], []) ∧
      exTcDate.processDataframe ["d"] [[("d", Value.vDate 2024 1 5)]]
        = .error "ColumnNotFoundError: __nb__d" ∧
      exTcInt.processDataframe ["x"] [[("x", Value.vInt 4611686018427387905)]]
        = .ok ([[("x", Value.vInt 4611686018427387904)]], []) := by
  exact ⟨by decide, by decide, by decide⟩

/-- C4 (amended): applying the stage again to an already-typed batch
returns the identity with zero new rejections for columns of integer,
number, boolean, string and datetime type — with no null tokens configured
and integer cells within `±2 ^ 53`, the range the chain's `Float64`
round-trip preserves.  Typed *date* columns are excluded (the whole batch
makes the stage raise — counterexample (a)), as are larger integers
(corrupted in place — counterexample (b)). -/
theorem forklift_c4_amended (tc : TC) (cols : List String) (rows : List Row)
    (hnul : tc.nulls = [])
    (hdate : ∀ p ∈ tc.specs, p.2 ≠ CanonType.ctDate)
    (hnodup : ∀ r ∈ rows, (rowKeys r).Nodup)
    (htyped : ∀ r ∈ rows, ∀ p ∈ tc.declared cols,
        typedCell p.2 ((assocGet r p.1).getD Value.vNull) = true) :
    tc.processDataframe cols rows = .ok (rows, []) :=
  processDataframe_typed tc cols rows hnul hdate hnodup htyped

/-- A mixed-type `TypeCoercion` and an already-typed batch for the C4
witness. -/
def exTcMix : TC := TC.ofTypes
  [("i", .simple "integer"), ("nm", .simple "number"), ("b", .simple "boolean"),
   ("s", .simple "string"), ("t", .objFmt "string" "date-time")] []

/-- An already-typed row for the C4 witness. -/
def exRowMix : Row :=
  [("i", Value.vInt (-7)), ("nm", Value.vNum 105 1), ("b", Value.vBool true),
   ("s", Value.vStr "hey"), ("t", Value.vDatetime 2024 3 1 12 34 56)]

/-- C4 witness: the amended idempotence at a concrete typed batch. -/
theorem forklift_c4_witness :
    exTcMix.processDataframe ["i", "nm", "b", "s", "t"] [exRowMix] = .ok ([exRowMix], []) :=
  forklift_c4_amended exTcMix ["i", "nm", "b", "s", "t"] [exRowMix]
    rfl (by decide) (by decide) (by decide)

/-- A sink opened with a typed schema field, after one `write` call
(driving C2). -/
def exValSink : SinkState :=
  (SinkState.openSink [("id", TypeSpec.simple "integer")]).write
    [("id", Value.vStr "1"), ("_table", Value.vStr "t")]

/-- A typed sink after one *invalid* write, whose closing flush therefore
raises (driving the C2 counterexample's manifest half). -/
def exBadValSink : SinkState :=
  (SinkState.openSink [("id", TypeSpec.simple "integer")]).write
    [("id", Value.vStr "abc"), ("_table", Value.vStr "t")]

/-- C2 (counterexample): with a typed sink schema, `kept` counting is
deferred to flush-time validation, so at the observable checkpoint right
after a `write` call the counters do *not* satisfy
`read = kept + rejected + skipped_by_flag` (here `1 ≠ 0 + 0 + 0`); and
when the deferred validation raises at flush (an invalid buffered row),
the manifest written in `close`'s `finally` still carries the stale
counters `{read 1, kept 0, rejected 0}`, violating the equation at the
close checkpoint too. -/
theorem forklift_c2_counterexample :
    exValSink.read ≠ exValSink.kept + exValSink.rejected + exValSink.skipped ∧
    exBadValSink.close.manifest = some (1, 0, 0) ∧
    exBadValSink.close.read
      ≠ exBadValSink.close.kept + exBadValSink.close.rejected
        + exBadValSink.close.skipped ∧
    exBadValSink.close.failure = some "ColumnNotFoundError: __nb__id" := by
  exact ⟨by decide, by decide, by decide, by decide⟩

/-- C2 (amended): the counter equation `read = kept + rejected +
skipped_by_flag` holds at sink close whenever the closing flush does not
raise — in particular always when no validation is configured, and on
successful deferred validation, which keeps every buffered row — and holds
at *every* checkpoint when no typed schema is configured; while validation
is deferred, rows sitting in the buffers are counted in `read` only until
flush, and a raising flush leaves the manifest in violation
(counterexample). -/
theorem forklift_c2_amended (fields : List (String × TypeSpec)) (evs : List SinkEv)
    (hok : ((SinkState.openSink fields).applyEvents evs).close.failure = none) :
    (((SinkState.openSink fields).applyEvents evs).close.read
        = ((SinkState.openSink fields).applyEvents evs).close.kept
          + ((SinkState.openSink fields).applyEvents evs).close.rejected
          + ((SinkState.openSink fields).applyEvents evs).close.skipped) ∧
    (((SinkState.openSink []).applyEvents evs).read
        = ((SinkState.openSink []).applyEvents evs).kept
          + ((SinkState.openSink []).applyEvents evs).rejected
          + ((SinkState.openSink []).applyEvents evs).skipped) := by
  constructor
  · exact close_counterEq _ (counterEq_applyEvents evs _ (counterEq_openSink fields)) hok
  · have h := counterEq_applyEvents evs _ (counterEq_openSink [])
    have htm := applyEvents_typeMap evs (SinkState.openSink [])
    unfold counterEq pendingCount at h
    rw [if_neg (by simp [SinkState.hasValidation, htm]; rfl)] at h
    omega

/-- A concrete driver trace: one ordinary write, one skip-flagged write,
one quarantined row (driving the C2 witness). -/
def exEvTrace : List SinkEv :=
  [.write [("id", Value.vStr "1"), ("_table", Value.vStr "t")],
   .write [("id", Value.vStr "1"), ("__forklift_skip__", Value.vBool true)],
   .quar [("id", Value.vStr "zz")] "bad"]

/-- The typed-schema sink after that trace and close. -/
def exC2Closed : SinkState :=
  ((SinkState.openSink [("id", TypeSpec.simple "integer")]).applyEvents exEvTrace).close

/-- C2 witness: the amended equation at the concrete trace (whose single
buffered row is valid, so the closing flush succeeds). -/
theorem forklift_c2_witness :
    exC2Closed.read = exC2Closed.kept + exC2Closed.rejected + exC2Closed.skipped :=
  (forklift_c2_amended [("id", TypeSpec.simple "integer")] exEvTrace (by decide)).1

/-- An engine whose chain holds a real coercion stage (`d` as date),
driving C3. -/
def exCfgC3 : EngineCfg :=
  ⟨[], false, [], some (TC.ofTypes [("d", .simple "date")] []), 50000⟩

/-- The sink's schema fields for the C3 run: the same typed field. -/
def exFieldsC3 : List (String × TypeSpec) := [("d", .simple "date")]

/-- One table whose row passes the upstream coercion (string date parses)
but whose *typed* date cell the sink's re-validation cannot re-coerce. -/
def exTablesC3 : List (String × List Row) :=
  [("t", [[("d", Value.vStr "2024-01-05")]])]

/-- C3 (counterexample): a coercion stage ran upstream and accepted the row
(one row reached `Write`, nothing quarantined, `read = 1`), and yet the
sink *did* perform additional validation on it: its flush-time re-coercion
of the buffered (now typed) date cell flags it invalid, the stage raises,
and the run ends crashed with the row neither kept nor written — the
sink's secondary validation is keyed on the schema's typed fields, not on
the absence of a coercion stage. -/
theorem forklift_c3_counterexample :
    exCfgC3.tc ≠ none ∧
    (runTables exCfgC3 (SinkState.openSink exFieldsC3) exTablesC3).failure = none ∧
    (runTables exCfgC3 (SinkState.openSink exFieldsC3) exTablesC3).writeLog.length = 1 ∧
    (runTables exCfgC3 (SinkState.openSink exFieldsC3) exTablesC3).read = 1 ∧
    (engineRun exCfgC3 exFieldsC3 exTablesC3).failure
        = some "ColumnNotFoundError: __nb__d" ∧
    (engineRun exCfgC3 exFieldsC3 exTablesC3).kept = 0 ∧
    (engineRun exCfgC3 exFieldsC3 exTablesC3).parquet = [] := by
  refine ⟨by decide, by decide, by decide, by decide, by decide, by decide, by decide⟩

/-- C3 (amended): the sink's secondary validation is controlled solely by
whether its schema lists named typed fields, not by the upstream chain —
and when it does run, it never routes a row to quarantine: for *every*
sink state, close adds no quarantine entries and counts no rejections
(flush-time validation keeps a table's rows wholesale or raises), and with
no typed fields close performs no validation at all, leaving `kept`,
`read` and `failure` untouched as well. -/
theorem forklift_c3_amended (st : SinkState) :
    (SinkState.close st).qlines = st.qlines ∧
    (SinkState.close st).rejected = st.rejected ∧
    (st.typeMap = [] →
      (SinkState.close st).kept = st.kept ∧
      (SinkState.close st).read = st.read ∧
      (SinkState.close st).failure = st.failure) := by
  refine ⟨(close_no_quarantine st).1, (close_no_quarantine st).2, ?_⟩
  intro hval
  obtain ⟨_, h2, h3, _, h5⟩ := close_noval st hval
  exact ⟨h3, h2, h5⟩

/-- A schema-less sink after one ordinary write (driving the C3 witness). -/
def exSinkC3 : SinkState :=
  (SinkState.openSink []).write [("id", Value.vStr "1"), ("_table", Value.vStr "t")]

/-- C3 witness: the amended close-transparency at the concrete
schema-less sink. -/
theorem forklift_c3_witness :
    exSinkC3.close.qlines = exSinkC3.qlines ∧
    exSinkC3.close.rejected = exSinkC3.rejected ∧
    exSinkC3.close.kept = exSinkC3.kept := by
  have h := forklift_c3_amended exSinkC3
  exact ⟨h.1, h.2.1, (h.2.2 (by decide)).1⟩

/-- A dedup-configured engine (key `id`, no preprocessor, no required
fields). -/
def exCfgDedup : EngineCfg := ⟨[], false, ["id"], none, 50000⟩

/-- Three rows with a duplicated `id` (driving C6/C7). -/
def exRowsDedup : List Row :=
  [[("id", Value.vStr "1")], [("id", Value.vStr "1")], [("id", Value.vStr "2")]]

/-- A dedup engine that also requires `id2` (driving the C6
counterexample). -/
def exCfgC6 : EngineCfg := ⟨["id2"], false, ["k"], none, 50000⟩

/-- Two rows with the same dedup key; the first fails the required check. -/
def exRowsC6 : List Row :=
  [[("id2", Value.vStr ""), ("k", Value.vStr "a")],
   [("id2", Value.vStr "1"), ("k", Value.vStr "a")]]

/-- C6 (counterexample): the required check runs before the dedup check, so
the *first* row bearing key `"a"` is rejected (quarantined), its key is
never recorded, and the *later* row with the same key is accepted
unflagged and written — against the claim that the first row of each key is
accepted and every later one is skip-flagged. -/
theorem forklift_c6_counterexample :
    (runTables exCfgC6 (SinkState.openSink []) [("t", exRowsC6)]).rejected = 1 ∧
    (runTables exCfgC6 (SinkState.openSink []) [("t", exRowsC6)]).kept = 1 ∧
    (runTables exCfgC6 (SinkState.openSink []) [("t", exRowsC6)]).skipped = 0 ∧
    (runTables exCfgC6 (SinkState.openSink []) [("t", exRowsC6)]).writeLog.map
        (fun r => assocGet r "__forklift_skip__") = [none] := by
  refine ⟨by decide, by decide, by decide, by decide⟩

/-- C6 (amended): for a run with a non-empty dedup-key tuple, *among the
rows that pass the required-field check* (and carry no pre-existing skip
flag), the first row bearing each key tuple is accepted and buffered for
writing, and every later row with the same tuple is skip-flagged, yielded
accepted (nothing rejected, no quarantine entry), counted in `read` and
`skipped` but not in `kept`, and not buffered; the buffered rows carry each
key tuple exactly once, in first-occurrence input order. -/
theorem forklift_c6_amended (cfg : EngineCfg) (n : String) (rows : List Row)
    (hks : cfg.dedupeKeys.isEmpty = false) (htc : cfg.tc = none)
    (hn : n.data.isEmpty = false)
    (hreq : ∀ r ∈ rows, requiredOk cfg (withTable n r) = true)
    (hflag : ∀ r ∈ rows, assocGet r "__forklift_skip__" = none) :
    (runTable cfg (SinkState.openSink []) n rows).read = rows.length ∧
    (runTable cfg (SinkState.openSink []) n rows).rejected = 0 ∧
    (runTable cfg (SinkState.openSink []) n rows).qlines = [] ∧
    (runTable cfg (SinkState.openSink []) n rows).kept
      = (firstOccAux (fun r => keyOf cfg.dedupeKeys (withTable n r)) [] rows).length ∧
    (runTable cfg (SinkState.openSink []) n rows).skipped
      = rows.length
        - (firstOccAux (fun r => keyOf cfg.dedupeKeys (withTable n r)) [] rows).length ∧
    (runTable cfg (SinkState.openSink []) n rows).buffers
      = (if (firstOccAux (fun r => keyOf cfg.dedupeKeys (withTable n r)) [] rows).isEmpty
          then []
          else [(n, (firstOccAux (fun r => keyOf cfg.dedupeKeys (withTable n r)) [] rows).map
                  (fun r => cleanRow (withTable n r)))]) ∧
    ((firstOccAux (fun r => keyOf cfg.dedupeKeys (withTable n r)) [] rows).map
        (fun r => keyOf cfg.dedupeKeys (withTable n r))).Nodup ∧
    (firstOccAux (fun r => keyOf cfg.dedupeKeys (withTable n r)) [] rows).Sublist rows := by
  rw [runTable_noPre cfg htc (SinkState.openSink []) rfl]
  obtain ⟨h1, h2, h3, h4, h5, h6, h7, h8⟩ :=
    dedup_emit cfg n hks rows [] (SinkState.openSink []) rfl hreq hflag
  have hkey : ∀ r : Row, tableKeyOf (withTable n r) = n := by
    intro r
    rw [tableKeyOf_withTable]
    simp [hn]
  refine ⟨by rw [h1]; simp [SinkState.openSink],
    by rw [h2]; simp [SinkState.openSink],
    by rw [h3]; simp [SinkState.openSink],
    by rw [h4]; simp [SinkState.openSink],
    by rw [h5]; simp [SinkState.openSink], ?_,
    (firstOccAux_keys _ [] rows).1, firstOccAux_sublist _ [] rows⟩
  rw [h6]
  have hfun : (fun (b : List (String × List Row)) (r : Row) =>
        bufAppend b (tableKeyOf (withTable n r)) (cleanRow (withTable n r)))
      = (fun (b : List (String × List Row)) (r : Row) =>
        bufAppend b n (cleanRow (withTable n r))) := by
    funext b r
    rw [hkey r]
  rw [hfun]
  exact bufAppend_fold_nil n (fun r => cleanRow (withTable n r)) _

/-- C6 witness: the amended dedup discipline at the concrete three-row
table (two distinct keys, one duplicate). -/
theorem forklift_c6_witness :
    (runTable exCfgDedup (SinkState.openSink []) "t" exRowsDedup).kept = 2 ∧
    (runTable exCfgDedup (SinkState.openSink []) "t" exRowsDedup).skipped = 1 ∧
    (runTable exCfgDedup (SinkState.openSink []) "t" exRowsDedup).rejected = 0 := by
  have h := forklift_c6_amended exCfgDedup "t" exRowsDedup rfl rfl rfl
    (by decide) (by decide)
  refine ⟨?_, ?_, h.2.1⟩
  · rw [h.2.2.2.1]
    decide
  · rw [h.2.2.2.2.1]
    decide

/-- C7 (counterexample): during the dedup run, the *second* `write` call
receives a row that still carries the reserved `__forklift_skip__` key —
the engine passes the flag through the `Write` API (the sink strips it only
after receiving the row). -/
theorem forklift_c7_counterexample :
    (runTables exCfgDedup (SinkState.openSink []) [("t", exRowsDedup)]).writeLog.map
        (fun r => r.any (fun p => reservedKey p.1))
      = [false, true, false] := by
  decide

/-- C7 (amended): although skip-flagged rows do reach `write` carrying the
reserved-prefix key (counterexample above), no row that the sink *buffers*
— and hence nothing persisted to a Parquet file — ever contains a key
beginning with the reserved internal-flag prefix: `write` strips
`__forklift_`-prefixed keys before buffering and drops flagged rows
entirely. -/
theorem forklift_c7_amended (cfg : EngineCfg) (fields : List (String × TypeSpec))
    (tables : List (String × List Row)) :
    ∀ b ∈ (runTables cfg (SinkState.openSink fields) tables).buffers,
      ∀ r ∈ b.2, ∀ p ∈ r, reservedKey p.1 = false := by
  intro b hb r hr p hp
  have hinv : BufInv (runTables cfg (SinkState.openSink fields) tables) := by
    apply BufInv_runTables
    intro b2 hb2
    cases hb2
  exact (hinv b hb r hr).1 p hp

/-- C7 witness: the amended buffer cleanliness at the concrete dedup run
(the buffered first-occurrence row's `id` key is not reserved). -/
theorem forklift_c7_witness : reservedKey "id" = false :=
  forklift_c7_amended exCfgDedup [] [("t", exRowsDedup)]
    ("t", [[("id", Value.vStr "1"), ("_table", Value.vStr "t")],
           [("id", Value.vStr "2"), ("_table", Value.vStr "t")]])
    (by decide)
    [("id", Value.vStr "1"), ("_table", Value.vStr "t")] (by decide)
    ("id", Value.vStr "1") (by decide)

/-- A plain engine (no dedup, no preprocessor) and a one-row table
(driving C8). -/
def exCfgPlain : EngineCfg := ⟨[], false, [], none, 50000⟩

/-- The one-row table for the C8 counterexample. -/
def exTablesC8 : List (String × List Row) := [("t", [[("id", Value.vStr "1")]])]

/-- C8 (counterexample): the synthetic `_table` key *does* appear as a
column of the emitted Parquet file — `write` strips only
`__forklift_`-prefixed keys, so the buffered rows (and the schema inferred
from them) keep `_table` alongside the data columns. -/
theorem forklift_c8_counterexample :
    (engineRun exCfgPlain [] exTablesC8).parquet = [("t.parquet", ["id", "_table"])] := by
  decide

/-- C8 (amended): every Parquet file an engine run emits takes its columns
from the buffered rows' keys, which always include the synthetic `_table`
column and never include a reserved `__forklift_`-prefixed name. -/
theorem forklift_c8_amended (cfg : EngineCfg) (fields : List (String × TypeSpec))
    (tables : List (String × List Row)) :
    ∀ q ∈ (engineRun cfg fields tables).parquet,
      "_table" ∈ q.2 ∧ ∀ c ∈ q.2, reservedKey c = false := by
  intro q hq
  unfold engineRun at hq
  have hpq : (runTables cfg (SinkState.openSink fields) tables).parquet = [] :=
    (runTables_stable cfg tables (SinkState.openSink fields)).2.2.1
  obtain ⟨r, ⟨b, hb, hr⟩, hcols⟩ :=
    close_parquet_origin (runTables cfg (SinkState.openSink fields) tables) hpq q hq
  have hinv : BufInv (runTables cfg (SinkState.openSink fields) tables) := by
    apply BufInv_runTables
    intro b2 hb2
    cases hb2
  obtain ⟨hclean, p, hpmem, hpk⟩ := hinv b hb r hr
  constructor
  · rw [hcols]
    unfold rowKeys
    exact List.mem_map.mpr ⟨p, hpmem, hpk⟩
  · intro c hc
    rw [hcols] at hc
    obtain ⟨p2, hp2, hp2k⟩ := List.mem_map.mp hc
    rw [← hp2k]
    exact hclean p2 hp2

/-- C8 witness: the amended column property at the concrete run's emitted
file (`t.parquet` with columns `id`, `_table`). -/
theorem forklift_c8_witness :
    "_table" ∈ ["id", "_table"] ∧ ∀ c ∈ ["id", "_table"], reservedKey c = false :=
  forklift_c8_amended exCfgPlain [] exTablesC8 ("t.parquet", ["id", "_table"])
    (by decide)

/-- C9 (confirmed): whether the run finishes normally or a non-row error
aborts the table loop after the sink opened, `close` still runs (the
`try/finally` of `Engine.run`): afterwards the destination holds exactly
`_quarantine.jsonl` (created at open) and `_manifest.json` (written at
close), and the manifest carries exactly the keys read/kept/rejected with
the counters current at that point — including zero-row runs. -/
theorem forklift_c9_close_artifacts (cfg : EngineCfg)
    (fields : List (String × TypeSpec))
    (tables : List (String × List (Except String Row))) :
    (engineRunE cfg fields tables).1.filesWritten
        = ["_quarantine.jsonl", "_manifest.json"] ∧
    (engineRunE cfg fields tables).1.manifest
        = some ((engineRunE cfg fields tables).1.read,
            (engineRunE cfg fields tables).1.kept,
            (engineRunE cfg fields tables).1.rejected) := by
  constructor
  · unfold engineRunE
    dsimp only
    rw [close_files, (runTablesE_stable cfg tables (SinkState.openSink fields)).2.1]
    rfl
  · exact close_manifest _

/-- Two tables sharing a dedup key value, then a two-chunk single table
(driving C10). -/
def exTablesC10 : List (String × List Row) :=
  [("t1", [[("id", Value.vStr "1")]]), ("t2", [[("id", Value.vStr "1")]])]

/-- C10 (confirmed): dedup uniqueness is scoped per logical table.  The
write log of a whole run decomposes table by table, each table's results
computed from a *fresh* (empty) seen-keys set and independent of the chunk
size (the single-pass right-hand side ignores chunk boundaries, so within
one table the set persists across batches) — hence a key tuple occurring in
two different tables is accepted in both. -/
theorem forklift_c10_dedup_scope (cfg : EngineCfg) (htc : cfg.tc = none)
    (fields : List (String × TypeSpec)) (tables : List (String × List Row)) :
    (runTables cfg (SinkState.openSink fields) tables).writeLog
      = (tables.map (fun t => acceptedRows (processAccepted cfg t.1 t.2 []).1)).flatten := by
  rw [runTables_writeLog cfg htc tables (SinkState.openSink fields) rfl]
  rfl

/-- C10 witness: the decomposition at the concrete two-table run — both
occurrences of key `"1"` are written (accepted), none skip-flagged. -/
theorem forklift_c10_witness :
    (runTables exCfgDedup (SinkState.openSink []) exTablesC10).writeLog.map
        (fun r => assocGet r "__forklift_skip__")
      = [none, none] := by
  have h := forklift_c10_dedup_scope exCfgDedup rfl [] exTablesC10
  rw [h]
  decide

end Forklift
